import Mathlib

/-!
# Verification of the go-valkit message-resolution engine

A shallow embedding, over `List Char` strings, of the message resolution and
interpolation engine of the `go-valkit` validator library:

* `normalizePath` (src/validator/utils.go),
* `interpolateParams` (src/validator/messages.go),
* the message registry `ValidationMessages` (src/validator/messages.go),
* the struct-field locator `getStructFieldFromNamespace` (src/validator/utils.go),
* the per-failure message resolution of `ValidateCtx` (src/validator/validator.go).

Go strings are embedded as `List Char`, Go `interface{}` parameter values as
`GoVal`, and Go maps as association lists (Go map iteration order is
unspecified; where the source iterates over a map we fix the insertion order
of the keys, which is noted at each such definition).
-/

set_option maxHeartbeats 1000000

namespace Valkit

/-- Strings of the embedded program. -/
abbrev Str := List Char

/-- Char class `\d` of Go's regexp (ASCII digits 0-9); identical to
`Char.isDigit`. -/
def isDigitC (c : Char) : Bool := '0' ≤ c ∧ c ≤ '9'

/-- Char class `\w` of Go's regexp: `[0-9A-Za-z_]`. -/
def isWordC (c : Char) : Bool :=
  isDigitC c ∨ ('a' ≤ c ∧ c ≤ 'z') ∨ ('A' ≤ c ∧ c ≤ 'Z') ∨ c = '_'

/-- Whitespace as recognized by Go's `unicode.IsSpace` (used by
`strings.TrimSpace`): `\t \n \v \f \r space NEL NBSP` and the Unicode
`White_Space` code points. -/
def goIsSpace (c : Char) : Bool :=
  c = ' ' ∨ (9 ≤ c.val ∧ c.val ≤ 13) ∨ c.val = 0x85 ∨ c.val = 0xA0 ∨
  c.val = 0x1680 ∨ (0x2000 ≤ c.val ∧ c.val ≤ 0x200A) ∨ c.val = 0x2028 ∨
  c.val = 0x2029 ∨ c.val = 0x202F ∨ c.val = 0x205F ∨ c.val = 0x3000

/-- The decimal digit character for `d < 10` (callers only pass values
below ten). -/
def digitChar : Nat → Char
  | 0 => '0' | 1 => '1' | 2 => '2' | 3 => '3' | 4 => '4'
  | 5 => '5' | 6 => '6' | 7 => '7' | 8 => '8' | _ => '9'

/-- Decimal digits of `n`, most significant first; `fuel` bounds the
recursion depth (any `fuel > n` is enough). -/
def natDigitsAux : Nat → Nat → Str
  | 0, _ => []
  | fuel + 1, n =>
    if n < 10 then [digitChar n]
    else natDigitsAux fuel (n / 10) ++ [digitChar (n % 10)]

/-- Decimal representation of a natural number (Go `strconv.Itoa` /
`fmt.Sprintf("%d", n)` for non-negative values). -/
def natRepr (n : Nat) : Str := natDigitsAux (n + 1) n

/-- Boolean prefix test on lists of characters. -/
def prefixB : Str → Str → Bool
  | [], _ => true
  | _ :: _, [] => false
  | a :: as, b :: bs => if a = b then prefixB as bs else false

/-- Boolean substring-occurrence test: `occursB pat l` is true iff `pat`
occurs contiguously inside `l`. -/
def occursB (pat : Str) : Str → Bool
  | [] => prefixB pat []
  | c :: rest => prefixB pat (c :: rest) || occursB pat rest

/-- Go `strings.Replace(s, old, new, 1)`: replace the leftmost occurrence
of `old` (non-overlapping, left to right); for the empty `old` the Go
function inserts instead, a case never exercised here and embedded as the
identity. -/
def replaceFirst (pat new : Str) : Str → Str
  | [] => []
  | c :: rest =>
    if pat ≠ [] ∧ prefixB pat (c :: rest) then new ++ (c :: rest).drop pat.length
    else c :: replaceFirst pat new rest

/-- Worker for `replaceAll`; `fuel ≥ s.length` is always sufficient since
every step consumes at least one character of `s`. -/
def replaceAllAux (pat new : Str) : Nat → Str → Str
  | 0, s => s
  | _ + 1, [] => []
  | fuel + 1, c :: rest =>
    if pat ≠ [] ∧ prefixB pat (c :: rest) then
      new ++ replaceAllAux pat new fuel ((c :: rest).drop pat.length)
    else c :: replaceAllAux pat new fuel rest

/-- Go `strings.Replace(s, old, new, -1)`: replace all occurrences of
`old`, non-overlapping, left to right; for the empty `old` the Go function
inserts instead, a case never exercised here and embedded as the
identity. -/
def replaceAll (pat new s : Str) : Str := replaceAllAux pat new s.length s

/-- Worker for `bracketPass`; `fuel ≥ l.length` is always sufficient. -/
def bpAux : Nat → Str → Str
  | 0, l => l
  | _ + 1, [] => []
  | fuel + 1, c :: rest =>
    if c = '[' then
      let ds := rest.takeWhile isDigitC
      if ds ≠ [] ∧ (rest.drop ds.length).head? = some ']' then
        '[' :: ']' :: bpAux fuel (rest.drop (ds.length + 1))
      else c :: bpAux fuel rest
    else c :: bpAux fuel rest

/-- `regexp.MustCompile` of the pattern bracket-digits-bracket followed by
`ReplaceAllString(path, "[]")` in `normalizePath`: every occurrence of
`[` + one-or-more digits + `]` is rewritten, leftmost first,
non-overlapping. A position starting `[` matches exactly when the maximal
digit run after it is non-empty and immediately followed by `]` (Go regexp
backtracking cannot shorten the run because `]` is not a digit). -/
def bracketPass (l : Str) : Str := bpAux l.length l

/-- Worker for `dotCollapse`; `fuel ≥ l.length` is always sufficient. -/
def dcAux : Nat → Str → Str
  | 0, l => l
  | _ + 1, [] => []
  | fuel + 1, c :: rest =>
    if c = '.' then '.' :: dcAux fuel (rest.dropWhile (fun d => d = '.'))
    else c :: dcAux fuel rest

/-- The dot-collapsing regexp replacement in `normalizePath`: every maximal
run of one-or-more `.` is replaced by a single `.`. -/
def dotCollapse (l : Str) : Str := dcAux l.length l

/-- Go `strings.TrimSpace`: drop `unicode.IsSpace` characters from both
ends. -/
def trimSpace (l : Str) : Str :=
  ((l.dropWhile goIsSpace).reverse.dropWhile goIsSpace).reverse

/-- `strings.ReplaceAll(path, " ", "")` in `normalizePath`: removes every
ASCII space character. -/
def removeSpaces (l : Str) : Str := l.filter (fun c => c ≠ ' ')

/-- `normalizePath` from src/validator/utils.go: trim surrounding
whitespace, map the empty path to itself, remove all spaces, rewrite every
bracketed numeric index to `[]`, and collapse runs of dots. -/
def normalizePath (path : Str) : Str :=
  let path := trimSpace path
  if path = [] then []
  else dotCollapse (bracketPass (removeSpaces path))

example : normalizePath "users[0].addresses[12].street".toList =
    "users[].addresses[].street".toList := by decide

example : normalizePath "  a [ 10 ] ..b ".toList = "a[].b".toList := by decide

example : normalizePath "a[0][1]".toList = "a[][]".toList := by decide

example : bracketPass "[1[2]3]".toList = "[1[]3]".toList := by decide

example : replaceAll "ab".toList "X".toList "zababy".toList = "zXXy".toList := by decide

/-- A Go `interface{}` parameter value as used by the engine: a string, an
integer, a boolean, or the untyped `nil` interface. -/
inductive GoVal where
  | str (s : Str)
  | int (n : Int)
  | bool (b : Bool)
  | nil
deriving DecidableEq

/-- Decimal representation of an integer (Go `fmt.Sprintf("%v", n)` for an
`int`). -/
def intRepr : Int → Str
  | Int.ofNat m => natRepr m
  | Int.negSucc m => '-' :: natRepr (m + 1)

/-- Go `fmt.Sprintf("%v", v)` on the embedded values: strings unquoted,
integers in decimal, booleans as `true`/`false`, and the nil interface as
`<nil>`. -/
def renderVal : GoVal → Str
  | GoVal.str s => s
  | GoVal.int n => intRepr n
  | GoVal.bool true => "true".toList
  | GoVal.bool false => "false".toList
  | GoVal.nil => "<nil>".toList

/-- The `__ESCAPED_BRACE_%d__` sentinel of `interpolateParams`. -/
def sentinel (k : Nat) : Str :=
  "__ESCAPED_BRACE_".toList ++ natRepr k ++ "__".toList

/-- Worker for `escapeExtract`: the scan of
`regexp.MustCompile` of double-brace groups (`ReplaceAllStringFunc` in
`interpolateParams`). At a position starting with two `{` the non-greedy
group of non-brace characters matches exactly when the maximal non-brace
run is immediately followed by `}}`; on failure the scan advances one
character (leftmost-match semantics). `k` is `len(replacements)`;
`fuel ≥ l.length` is always sufficient. -/
def escAux : Nat → Nat → Str → Str × List (Str × Str)
  | 0, _, l => (l, [])
  | _ + 1, _, [] => ([], [])
  | fuel + 1, k, c :: rest =>
    if c = '{' ∧ rest.head? = some '{' then
      let body := rest.tail
      let inner := body.takeWhile (fun d => d ≠ '{' ∧ d ≠ '}')
      if prefixB ['}', '}'] (body.drop inner.length) then
        let out := escAux fuel (k + 1) (body.drop (inner.length + 2))
        (sentinel k ++ out.1, (sentinel k, '{' :: (inner ++ ['}'])) :: out.2)
      else
        let out := escAux fuel k rest
        (c :: out.1, out.2)
    else
      let out := escAux fuel k rest
      (c :: out.1, out.2)

/-- The escape-extraction stage of `interpolateParams`: replace every
`{{...}}` group by a fresh sentinel and record the sentinel together with
its single-brace literal form, in match order. -/
def escapeExtract (l : Str) : Str × List (Str × Str) := escAux l.length 0 l

/-- The `namedParams` map of `interpolateParams`: positions 0, 1, 2 of the
parameter list bound to `field`, `value`, `param` when present. The Go map
is iterated in unspecified order; the embedding fixes the insertion order
field, value, param. -/
def namedParams (params : List GoVal) : List (Str × GoVal) :=
  (match params[0]? with
   | some v => [("field".toList, v)]
   | none => []) ++
  (match params[1]? with
   | some v => [("value".toList, v)]
   | none => []) ++
  (match params[2]? with
   | some v => [("param".toList, v)]
   | none => [])

/-- `interpolateParams` from src/validator/messages.go: on an empty or nil
parameter list the message is returned unchanged; otherwise escaped
`{{...}}` groups are put aside behind sentinels, the named placeholders
`{field}`/`{value}`/`{param}` are substituted (a nil value by the empty
string), the positional placeholders `{0}`, `{1}`, ... are substituted for
each in-range index, and finally each sentinel is replaced once by its
single-brace literal. -/
def interpolateParams (message : Str) (params : List GoVal) : Str :=
  if params = [] then message
  else
    let er := escapeExtract message
    let r1 := (namedParams params).foldl
      (fun acc nv =>
        replaceAll ('{' :: (nv.1 ++ ['}']))
          (if nv.2 = GoVal.nil then [] else renderVal nv.2) acc) er.1
    let r2 := params.enum.foldl
      (fun acc ip =>
        replaceAll ('{' :: (natRepr ip.1 ++ ['}'])) (renderVal ip.2) acc) r1
    er.2.foldl (fun acc pr => replaceFirst pr.1 pr.2 acc) r2

example : interpolateParams "Value must be at least {0}".toList [GoVal.int 5] =
    "Value must be at least 5".toList := by decide

example : interpolateParams "Error in field {0}: must match format {{0}}-{1}-{2}".toList
    [GoVal.str "date".toList, GoVal.str "yyyy".toList, GoVal.str "mm".toList,
     GoVal.str "dd".toList] =
    "Error in field date: must match format {0}-yyyy-mm".toList := by decide

example : interpolateParams "Field {field} with value {1} must be at least {param} characters".toList
    [GoVal.str "password".toList, GoVal.str "abc".toList, GoVal.str "8".toList] =
    "Field password with value abc must be at least 8 characters".toList := by decide

example : interpolateParams "Field {field} with value {value} must be {param}".toList
    [GoVal.str "email".toList, GoVal.nil, GoVal.nil] =
    "Field email with value  must be ".toList := by decide

example : interpolateParams "The {field} must use format {{fieldFormat}}".toList
    [GoVal.str "email".toList, GoVal.str "t".toList, GoVal.str "".toList] =
    "The email must use format {fieldFormat}".toList := by decide

example : interpolateParams "Value must be at least {000000000}".toList [GoVal.int 10] =
    "Value must be at least {000000000}".toList := by decide

example : interpolateParams "This is a {test} message with {placeholders}".toList [] =
    "This is a {test} message with {placeholders}".toList := by decide

/-- One overlay of named custom parameters (one Go `CustomParams` map;
iteration order of the Go map is unspecified, the embedding fixes the
listed order). -/
abbrev Overlay := List (Str × GoVal)

/-- Update an association list at a key (Go map assignment). -/
def setS {α : Type} : List (Str × α) → Str → α → List (Str × α)
  | [], k, v => [(k, v)]
  | (k', v') :: rest, k, v =>
    if k' = k then (k, v) :: rest else (k', v') :: setS rest k v

/-- Look up an association list (Go map read). -/
def lookupS {α : Type} : List (Str × α) → Str → Option α
  | [], _ => none
  | (k', v') :: rest, k => if k' = k then some v' else lookupS rest k

/-- Modelled from the spec: the name-to-value table of the named
substitution step of the interpolation contract (§4.2 step 2) — positions
0, 1, 2 of the positional list bound to the reserved names `field`,
`value`, `param`, then each custom overlay applied in order, later
overlays overwriting earlier ones and overwriting the reserved names. -/
def buildTable (positional : List GoVal) (overlays : List Overlay) : Overlay :=
  overlays.foldl (fun t ov => ov.foldl (fun t' kv => setS t' kv.1 kv.2) t)
    (namedParams positional)

/-- The string form used by the spec's interpolator for a substituted
value: natural textual form, nil as the empty string (§4.2). -/
def renderSpec (v : GoVal) : Str := if v = GoVal.nil then [] else renderVal v

/-- Modelled from the spec: the named-substitution scan of §4.2 step 2 of
the current `interpolateParams` (its source is not under src/; only its
tests and callers are). One left-to-right pass over the string: a
placeholder is a run of non-brace characters between a single pair of
braces; a digit-leading run is skipped (left literal), a run bound in the
table is replaced by its string form (nil as empty), an unbound run is
left untouched; scanning resumes after the match. `fuel ≥ l.length`
is always sufficient. -/
def namedScanAux : Nat → Overlay → Str → Str
  | 0, _, l => l
  | _ + 1, _, [] => []
  | fuel + 1, table, c :: rest =>
    if c = '{' then
      let run := rest.takeWhile (fun d => d ≠ '{' ∧ d ≠ '}')
      if (rest.drop run.length).head? = some '}' then
        let after := rest.drop (run.length + 1)
        if (run.head?.map isDigitC).getD false then
          '{' :: (run ++ ['}']) ++ namedScanAux fuel table after
        else
          match lookupS table run with
          | some v => renderSpec v ++ namedScanAux fuel table after
          | none => '{' :: (run ++ ['}']) ++ namedScanAux fuel table after
      else c :: namedScanAux fuel table rest
    else c :: namedScanAux fuel table rest

/-- Digits to number (the index denoted by a positional placeholder). -/
def digitsToNat (ds : Str) : Nat := ds.foldl (fun acc c => acc * 10 + (c.toNat - 48)) 0

/-- Modelled from the spec: the positional-substitution scan of §4.2 step 3
of the current `interpolateParams` — the stricter pattern matching only a
single digit or a multi-digit run with non-zero leading digit between
braces; in-range indices substitute the value's string form (nil as
empty), out-of-range and malformed ones are left literal. `fuel ≥ l.length`
is always sufficient. -/
def posScanAux : Nat → List GoVal → Str → Str
  | 0, _, l => l
  | _ + 1, _, [] => []
  | fuel + 1, ps, c :: rest =>
    if c = '{' then
      let ds := rest.takeWhile isDigitC
      if ds ≠ [] ∧ (rest.drop ds.length).head? = some '}' ∧
          (ds.length = 1 ∨ ds.head? ≠ some '0') then
        let after := rest.drop (ds.length + 1)
        match ps[digitsToNat ds]? with
        | some v => renderSpec v ++ posScanAux fuel ps after
        | none => '{' :: (ds ++ ['}']) ++ posScanAux fuel ps after
      else c :: posScanAux fuel ps rest
    else c :: posScanAux fuel ps rest

/-- Modelled from the spec: the current `interpolateParams` with custom
parameter overlays (§4.2; its source is not under src/, only its tests in
src/validator/messages_test.go and its callers in
src/validator/validator.go are). In order: escape extraction behind
sentinels, named substitution from the merged table, strict positional
substitution, and restoration of each sentinel exactly once. -/
def interpolateSpec (template : Str) (positional : List GoVal)
    (overlays : List Overlay) : Str :=
  let er := escapeExtract template
  let t := buildTable positional overlays
  let r1 := namedScanAux er.1.length t er.1
  let r2 := posScanAux r1.length positional r1
  er.2.foldl (fun acc pr => replaceFirst pr.1 pr.2 acc) r2

example : interpolateSpec "{{appName}} v{version}".toList []
    [[("appName".toList, GoVal.str "X".toList), ("version".toList, GoVal.str "1.0".toList)]] =
    "{appName} v1.0".toList := by decide

example : interpolateSpec "Error {000000123}".toList [] [] = "Error {000000123}".toList := by
  decide

example : interpolateSpec "{0name} field".toList [] [[("0name".toList, GoVal.str "Y".toList)]] =
    "{0name} field".toList := by decide

example : interpolateSpec "{name123}".toList [] [[("name123".toList, GoVal.str "Z".toList)]] =
    "Z".toList := by decide

example : interpolateSpec "{field}".toList [GoVal.str "orig".toList]
    [[("field".toList, GoVal.str "OVERRIDE".toList)]] = "OVERRIDE".toList := by decide

example : interpolateSpec "Welcome to {appName} version {version}".toList []
    [[("appName".toList, GoVal.str "TestApp".toList)],
     [("version".toList, GoVal.str "2.0.0".toList),
      ("appName".toList, GoVal.str "OverrideApp".toList)]] =
    "Welcome to OverrideApp version 2.0.0".toList := by decide

example : interpolateSpec "Welcome to {app{Name}}".toList []
    [[("app{Name}".toList, GoVal.str "TestApp".toList)]] =
    "Welcome to {app{Name}}".toList := by decide

example : interpolateSpec "User {field} registered at {domain} using {appName}".toList
    [GoVal.str "john.doe".toList]
    [[("appName".toList, GoVal.str "TestApp".toList),
      ("domain".toList, GoVal.str "example.com".toList)]] =
    "User john.doe registered at example.com using TestApp".toList := by decide

example : interpolateSpec "{{appName}} requires {{format}} format, actual: {appName}/{format}".toList
    [] [[("appName".toList, GoVal.str "TestApp".toList),
         ("format".toList, GoVal.str "JSON".toList)]] =
    "{appName} requires {format} format, actual: TestApp/JSON".toList := by decide

/-- `ValidationMessageConfig` from src/validator/messages.go: an optional
path-level default template and a constraint-keyed template map. -/
structure ValidationMessageConfig where
  Default : Str
  Constraints : List (Str × Str)
deriving DecidableEq

/-- `ValidationMessages`: normalized path keys to their configurations
(a Go map, embedded as an association list). -/
abbrev ValidationMessages := List (Str × ValidationMessageConfig)

/-- `SetMessage` from src/validator/messages.go: set the
constraint-specific template of a path, creating the configuration when
absent. -/
def SetMessage (vm : ValidationMessages) (path constraint message : Str) :
    ValidationMessages :=
  match lookupS vm path with
  | none => setS vm path { Default := [], Constraints := [(constraint, message)] }
  | some cfg =>
    setS vm path { cfg with Constraints := setS cfg.Constraints constraint message }

/-- `SetDefaultMessage` from src/validator/messages.go: set the path-level
default template, creating the configuration when absent. -/
def SetDefaultMessage (vm : ValidationMessages) (path message : Str) :
    ValidationMessages :=
  match lookupS vm path with
  | none => setS vm path { Default := message, Constraints := [] }
  | some cfg => setS vm path { cfg with Default := message }

/-- `ResolveMessage` from src/validator/messages.go: a present
constraint-specific template wins (even when empty), otherwise a non-empty
path default, otherwise the empty string; the chosen template is
interpolated (through the spec-modelled interpolator, whose source is not
under src/). -/
def ResolveMessage (vm : ValidationMessages) (path constraint : Str)
    (params : List GoVal) (overlays : List Overlay) : Str :=
  match lookupS vm path with
  | some cfg =>
    match lookupS cfg.Constraints constraint with
    | some msg => interpolateSpec msg params overlays
    | none =>
      if cfg.Default ≠ [] then interpolateSpec cfg.Default params overlays else []
  | none => []

/-- `CreateValidationParams` from src/validator/messages.go: field name,
actual value, and the constraint parameter (nil when empty). -/
def CreateValidationParams (field : Str) (actual : GoVal) (param : Str) :
    List GoVal :=
  [GoVal.str field, actual, if param ≠ [] then GoVal.str param else GoVal.nil]

/-- A Go `reflect.Type` as traversed by `getStructFieldFromNamespace`:
pointer, struct (named fields with their tags), slice, array, map (value
type only — keys are never traversed), or any other base kind. -/
inductive GoType where
  | ptr (t : GoType)
  | strukt (fields : List (Str × GoType × List (Str × Str)))
  | slice (t : GoType)
  | arr (t : GoType)
  | mp (t : GoType)
  | base (name : Str)

/-- A Go `reflect.StructField` as used here: name, type, tag map. -/
abbrev GoField := Str × GoType × List (Str × Str)

/-- Whether a type's `Kind()` is `reflect.Struct`. -/
def isStruct : GoType → Bool
  | GoType.strukt _ => true
  | _ => false

/-- `reflect.StructField.Tag.Get`: the tag value, or empty when absent. -/
def tagGet (tags : List (Str × Str)) (key : Str) : Str :=
  match lookupS tags key with
  | some v => v
  | none => []

/-- `getRawTagMessage` from src/validator/utils.go: the
constraint-specific `errmsg-{constraint}` tag, falling back to the general
`errmsg` tag. -/
def getRawTagMessage (f : GoField) (constraint : Str) : Str :=
  let message := tagGet f.2.2 ("errmsg-".toList ++ constraint)
  if message = [] then tagGet f.2.2 "errmsg".toList else message

/-- `reflect.FieldByName` on a struct type: first field with the given
name (embedded fields are not modelled). -/
def findField : List GoField → Str → Option GoField
  | [], _ => none
  | f :: rest, n => if f.1 = n then some f else findField rest n

/-- `reflect.FieldByName` including its panic on a non-struct receiver,
modelled as `Except.error`. -/
def fieldByName (t : GoType) (n : Str) : Except Unit (Option GoField) :=
  match t with
  | GoType.strukt fs => Except.ok (findField fs n)
  | _ => Except.error ()

/-- The single pointer unwrap `fieldType.Elem()` guarded by
`Kind() == reflect.Ptr` (the guard precedes every call, so the identity on
other kinds is never reached). -/
def stepPtr : GoType → GoType
  | GoType.ptr t => t
  | t => t

/-- The element dereference `fieldType.Elem()` guarded by a parsed array
index and `Kind() ∈ {Array, Slice}`. -/
def stepArr (idx : Option Nat) (t : GoType) : GoType :=
  match idx, t with
  | some _, GoType.arr e => e
  | some _, GoType.slice e => e
  | _, t => t

/-- Go `strings.Split(s, ".")`: the (always non-empty) list of
dot-separated segments. -/
def splitDot : Str → List Str
  | [] => [[]]
  | c :: rest =>
    let r := splitDot rest
    if c = '.' then [] :: r
    else
      match r with
      | [] => [[c]]
      | h :: t => (c :: h) :: t

/-- The per-segment parse of `getStructFieldFromNamespace`: the anchored
patterns word-chars + `[` + digits + `]` (array/slice index) and
word-chars + `[` + non-`]` chars + `]` (map key), else the raw segment.
Returns (field name, numeric index when present, map-key flag).
`strconv.Atoi` overflow on astronomically long indices is not modelled
(indices are unbounded naturals here). -/
def parsePart (part : Str) : Str × Option Nat × Bool :=
  let name := part.takeWhile isWordC
  let rest := part.drop name.length
  if name ≠ [] ∧ rest.head? = some '[' ∧ rest.getLast? = some ']' ∧ 2 ≤ rest.length then
    let mid := (rest.drop 1).dropLast
    if mid ≠ [] ∧ mid.all isDigitC then (name, some (digitsToNat mid), false)
    else if mid ≠ [] ∧ mid.all (fun c => c ≠ ']') then (name, none, true)
    else (part, none, false)
  else (part, none, false)

/-- The traversal loop of `getStructFieldFromNamespace` over the namespace
segments after the root segment, plus the trailing
`current.Kind() == reflect.Struct` lookup once the loop ends. `current`
must have every panic site (`FieldByName`) surface as `Except.error`. -/
def walkLoop : GoType → Str → List Str → Except Unit (Option GoField)
  | current, leaf, [] =>
    match current with
    | GoType.strukt fs => Except.ok (findField fs leaf)
    | _ => Except.ok none
  | current, leaf, part :: restParts =>
    let pr := parsePart part
    if pr.1 = leaf ∧ restParts = [] then fieldByName current pr.1
    else
      match fieldByName current pr.1 with
      | Except.error e => Except.error e
      | Except.ok none => Except.ok none
      | Except.ok (some field) =>
        let ft := stepPtr (stepArr pr.2.1 field.2.1)
        match ft with
        | GoType.mp velem =>
          if pr.2.2 ∧ restParts = [] then Except.ok (some field)
          else if restParts ≠ [] ∧ ¬ isStruct velem then Except.ok none
          else walkLoop velem leaf restParts
        | _ =>
          if restParts ≠ [] ∧ ¬ isStruct ft then Except.ok none
          else walkLoop ft leaf restParts

/-- `getStructFieldFromNamespace` from src/validator/utils.go: locate the
leaf field named by a fully-qualified namespace in a root type, reporting
`none` when any segment fails to resolve; Go panics are modelled as
`Except.error`. -/
def getStructFieldFromNamespace (structType : Option GoType) (ns leaf : Str) :
    Except Unit (Option GoField) :=
  match structType with
  | none => Except.ok none
  | some t0 =>
    let t1 := stepPtr t0
    match t1 with
    | GoType.strukt fs =>
      let parts := splitDot ns
      if parts.length ≤ 1 then Except.ok (findField fs leaf)
      else walkLoop (GoType.strukt fs) leaf parts.tail
    | _ => Except.ok none

/-- The validator configuration carried by `Validator` in
src/validator/validator.go, restricted to what message resolution reads. -/
structure ValidatorCfg where
  DefaultMessage : Str
  DefaultTagMessages : List (Str × Str)
  Messages : ValidationMessages
  CustomParams : Overlay

/-- `SetConstraintMessage` from src/validator/validator.go: normalize the
path, then store the constraint-specific template. -/
def SetConstraintMessage (v : ValidatorCfg) (path constraint message : Str) :
    ValidatorCfg :=
  { v with Messages := SetMessage v.Messages (normalizePath path) constraint message }

/-- `SetPathDefaultMessage` from src/validator/validator.go: normalize the
path, then store the path-level default template. -/
def SetPathDefaultMessage (v : ValidatorCfg) (path message : Str) : ValidatorCfg :=
  { v with Messages := SetDefaultMessage v.Messages (normalizePath path) message }

/-- `SetDefaultTagMessage` from src/validator/validator.go. -/
def SetDefaultTagMessage (v : ValidatorCfg) (tag message : Str) : ValidatorCfg :=
  { v with DefaultTagMessages := setS v.DefaultTagMessages tag message }

/-- The message-resolution block of `ValidateCtx`
(src/validator/validator.go): a found struct field with a non-empty raw
tag template gives the interpolated tag message; when that stage produced
the empty string, the registry at the normalized path; when still empty, a
present per-constraint default, else the global default. Interpolation
goes through the spec-modelled interpolator (the current variadic
`interpolateParams` is not under src/); the `Except.error` case of the
locator is unreachable (proved below) and resolved as the empty tag
message. -/
def resolveFailureMessage (v : ValidatorCfg) (structType : Option GoType)
    (structNS structFieldName normPath constraint : Str) (params : List GoVal) : Str :=
  let tagMsg :=
    match getStructFieldFromNamespace structType structNS structFieldName with
    | Except.ok (some field) =>
      let t := getRawTagMessage field constraint
      if t ≠ [] then interpolateSpec t params [v.CustomParams] else []
    | _ => []
  if tagMsg ≠ [] then tagMsg
  else
    let m2 := ResolveMessage v.Messages normPath constraint params [v.CustomParams]
    if m2 ≠ [] then m2
    else
      match lookupS v.DefaultTagMessages constraint with
      | some msg => interpolateSpec msg params [v.CustomParams]
      | none => interpolateSpec v.DefaultMessage params [v.CustomParams]

example :
    getStructFieldFromNamespace
      (some (GoType.strukt [("User".toList,
        GoType.slice (GoType.strukt [("Street".toList, GoType.base "string".toList,
          [("errmsg".toList, "bad street".toList)])]), [])]))
      "T.User[0].Street".toList "Street".toList =
    Except.ok (some ("Street".toList, GoType.base "string".toList,
      [("errmsg".toList, "bad street".toList)])) := rfl

example :
    getStructFieldFromNamespace
      (some (GoType.strukt [("A".toList, GoType.base "int".toList, [])]))
      "T.A[0].B".toList "B".toList = Except.ok none := rfl

example : replaceFirst "ab".toList "X".toList "zababy".toList = "zXaby".toList := by decide

example : natRepr 0 = "0".toList ∧ natRepr 12 = "12".toList ∧ natRepr 107 = "107".toList := by decide

example : occursB "ab".toList "zaby".toList = true ∧ occursB "ab".toList "zay".toList = false := by
  decide

/-- Whether the bracket-digits-bracket pattern of `normalizePath` matches
at the head of the string. -/
def brMatchAt (l : Str) : Bool :=
  match l with
  | c :: rest =>
    c = '[' ∧ rest.takeWhile isDigitC ≠ [] ∧
      (rest.drop (rest.takeWhile isDigitC).length).head? = some ']'
  | [] => false

/-- No position of the string starts a bracket-digits-bracket match. -/
def noBrB : Str → Bool
  | [] => true
  | c :: rest => !brMatchAt (c :: rest) && noBrB rest

/-- Whether a run of two or more dots starts at the head of the string. -/
def ddMatchAt (l : Str) : Bool :=
  match l with
  | c :: d :: _ => c = '.' ∧ d = '.'
  | _ => false

/-- No position of the string starts a run of two or more dots. -/
def noDDB : Str → Bool
  | [] => true
  | c :: rest => !ddMatchAt (c :: rest) && noDDB rest

/-- The fixed prefix of every `__ESCAPED_BRACE_%d__` sentinel. -/
def escMarker : Str := "__ESCAPED_BRACE_".toList

/-- A template consisting only of escaped placeholders with the given
inner texts. -/
def escBlocks (inners : List Str) : Str :=
  (inners.map (fun s => '{' :: '{' :: (s ++ ['}', '}']))).flatten

/-- The single-brace literal form of the same template. -/
def litBlocks (inners : List Str) : Str :=
  (inners.map (fun s => '{' :: (s ++ ['}']))).flatten

/-- The string left by escape extraction on an escaped-only template: the
sentinels in order, starting at index `k`. -/
def sentChain (k : Nat) : List Str → Str
  | [] => []
  | _ :: rest => sentinel k ++ sentChain (k + 1) rest

/-- The replacement list recorded by escape extraction on an escaped-only
template, starting at index `k`. -/
def repsFrom (k : Nat) : List Str → List (Str × Str)
  | [] => []
  | s :: rest => (sentinel k, '{' :: (s ++ ['}'])) :: repsFrom (k + 1) rest

/-- A concrete indexed path: a base segment followed by `[index]segment`
groups (`users[0].addresses[5].street` is
`pathRender "users" [(0, ".addresses"), (5, ".street")]`). -/
def partsRender : List (Nat × Str) → Str
  | [] => []
  | (i, seg) :: rest => '[' :: (natRepr i ++ ']' :: (seg ++ partsRender rest))

/-- The indexed path as a single string. -/
def pathRender (s0 : Str) (parts : List (Nat × Str)) : Str :=
  s0 ++ partsRender parts

/-- The same path shape with every bracketed index rewritten to `[]`. -/
def segsRender : List Str → Str
  | [] => []
  | seg :: rest => '[' :: ']' :: (seg ++ segsRender rest)

/-- Whether an embedded Go computation returned normally (no panic). -/
def exceptOk {α : Type} : Except Unit α → Bool
  | Except.ok _ => true
  | Except.error _ => false

/-! ## Basic lemmas about the scanners -/

theorem prefixB_iff (p : Str) : ∀ l : Str, prefixB p l = true ↔ p <+: l := by
  induction p with
  | nil => intro l; simp [prefixB]
  | cons a as ih =>
    intro l
    cases l with
    | nil => simp [prefixB]
    | cons b bs =>
      by_cases hab : a = b
      · subst hab
        simp [prefixB, ih, List.cons_prefix_cons]
      · simp [prefixB, hab, List.cons_prefix_cons]

theorem prefixB_self_append (p r : Str) : prefixB p (p ++ r) = true := by
  rw [prefixB_iff]; exact ⟨r, rfl⟩

theorem prefixB_length_le {p l : Str} (h : prefixB p l = true) : p.length ≤ l.length :=
  ((prefixB_iff p l).mp h).length_le

theorem occursB_eq_false_of_head {c : Char} {p l : Str} (h : c ∉ l) :
    occursB (c :: p) l = false := by
  induction l with
  | nil => simp [occursB, prefixB]
  | cons d rest ih =>
    have hcd : c ≠ d := fun he => h (he ▸ List.mem_cons_self d rest)
    have hrest : c ∉ rest := fun hm => h (List.mem_cons_of_mem d hm)
    simp [occursB, prefixB, hcd, ih hrest]

theorem occursB_append_right {pat b : Str} (a : Str) (h : occursB pat b = true) :
    occursB pat (a ++ b) = true := by
  induction a with
  | nil => simpa using h
  | cons c rest ih => simp [occursB, ih]

theorem occursB_of_prefixB {pat l : Str} (h : prefixB pat l = true) :
    occursB pat l = true := by
  cases l with
  | nil =>
    cases pat with
    | nil => simp [occursB, prefixB]
    | cons c cs => simp [prefixB] at h
  | cons c rest => simp [occursB, h]

theorem replaceAllAux_fuel (pat new : Str) :
    ∀ (f : Nat) (l : Str) (g : Nat), l.length ≤ f → l.length ≤ g →
      replaceAllAux pat new f l = replaceAllAux pat new g l := by
  intro f
  induction f with
  | zero =>
    intro l g h1 _
    have : l = [] := List.eq_nil_of_length_eq_zero (Nat.le_zero.mp h1)
    subst this
    cases g <;> rfl
  | succ f ih =>
    intro l g h1 h2
    cases l with
    | nil => cases g <;> rfl
    | cons c rest =>
      cases g with
      | zero => simp at h2
      | succ g =>
        simp only [replaceAllAux]
        by_cases hc : pat ≠ [] ∧ prefixB pat (c :: rest) = true
        · rw [if_pos hc, if_pos hc]
          have hp : 1 ≤ pat.length := by
            cases pat with
            | nil => exact absurd rfl hc.1
            | cons x xs => simp
          have hd : ((c :: rest).drop pat.length).length ≤ f := by
            simp only [List.length_drop, List.length_cons]
            simp only [List.length_cons] at h1
            omega
          have hd2 : ((c :: rest).drop pat.length).length ≤ g := by
            simp only [List.length_drop, List.length_cons]
            simp only [List.length_cons] at h2
            omega
          rw [ih _ g hd hd2]
        · rw [if_neg hc, if_neg hc]
          simp only [List.length_cons] at h1 h2
          rw [ih rest g (by omega) (by omega)]

theorem replaceAll_nil (pat new : Str) : replaceAll pat new [] = [] := rfl

theorem replaceAll_cons_pos {pat : Str} (new : Str) {c : Char} {rest : Str}
    (h : pat ≠ [] ∧ prefixB pat (c :: rest) = true) :
    replaceAll pat new (c :: rest) =
      new ++ replaceAll pat new ((c :: rest).drop pat.length) := by
  have hp : 1 ≤ pat.length := by
    cases pat with
    | nil => exact absurd rfl h.1
    | cons x xs => simp
  show replaceAllAux pat new (c :: rest).length (c :: rest) = _
  rw [show (c :: rest).length = rest.length + 1 from rfl]
  simp only [replaceAllAux, if_pos h]
  congr 1
  apply replaceAllAux_fuel
  · simp only [List.length_drop, List.length_cons]; omega
  · simp only [List.length_drop, List.length_cons]; omega

theorem replaceAll_cons_neg {pat : Str} (new : Str) {c : Char} {rest : Str}
    (h : ¬ (pat ≠ [] ∧ prefixB pat (c :: rest) = true)) :
    replaceAll pat new (c :: rest) = c :: replaceAll pat new rest := by
  show replaceAllAux pat new (c :: rest).length (c :: rest) = _
  rw [show (c :: rest).length = rest.length + 1 from rfl]
  simp only [replaceAllAux, if_neg h]
  rfl

theorem replaceAll_id_of_not_occurs {pat : Str} (new : Str) :
    ∀ {l : Str}, occursB pat l = false → replaceAll pat new l = l := by
  intro l
  induction l with
  | nil => intro _; rfl
  | cons c rest ih =>
    intro h
    simp only [occursB, Bool.or_eq_false_iff] at h
    rw [replaceAll_cons_neg new (by simp [h.1]), ih h.2]

theorem replaceFirst_id_of_not_occurs {pat : Str} (new : Str) :
    ∀ {l : Str}, occursB pat l = false → replaceFirst pat new l = l := by
  intro l
  induction l with
  | nil => intro _; rfl
  | cons c rest ih =>
    intro h
    simp only [occursB, Bool.or_eq_false_iff] at h
    simp only [replaceFirst, if_neg (by simp [h.1] :
      ¬ (pat ≠ [] ∧ prefixB pat (c :: rest) = true))]
    rw [ih h.2]

theorem replaceFirst_append_pat {pat : Str} (new : Str) (rest : Str)
    (hp : pat ≠ []) : replaceFirst pat new (pat ++ rest) = new ++ rest := by
  cases pat with
  | nil => exact absurd rfl hp
  | cons c cs =>
    simp only [List.cons_append, replaceFirst]
    rw [if_pos ⟨hp, by simpa using prefixB_self_append (c :: cs) rest⟩]
    congr 1
    exact List.drop_left (c :: cs) rest

theorem exceptOk_walkLoop (leaf : Str) :
    ∀ (parts : List Str) (current : GoType),
      (parts = [] ∨ isStruct current = true) →
      exceptOk (walkLoop current leaf parts) = true := by
  intro parts
  induction parts with
  | nil => intro current _; cases current <;> simp [walkLoop, exceptOk]
  | cons part rest ih =>
    intro current h
    have hs : isStruct current = true := by
      rcases h with h | h
      · simp at h
      · exact h
    cases current with
    | ptr t => simp [isStruct] at hs
    | slice t => simp [isStruct] at hs
    | arr t => simp [isStruct] at hs
    | mp t => simp [isStruct] at hs
    | base n => simp [isStruct] at hs
    | strukt fs =>
    simp only [walkLoop]
    split
    · simp [fieldByName, exceptOk]
    · simp only [fieldByName]
      split
      · rename_i heq
        simp at heq
      · simp [exceptOk]
      · rename_i field heq
        split
        · rename_i velem heq2
          split
          · simp [exceptOk]
          · split
            · simp [exceptOk]
            · rename_i hguard
              apply ih
              by_cases hr : rest = []
              · exact Or.inl hr
              · refine Or.inr ?_
                by_contra hv
                exact hguard ⟨hr, hv⟩
        · rename_i hnotmp
          split
          · simp [exceptOk]
          · rename_i hguard
            apply ih
            by_cases hr : rest = []
            · exact Or.inl hr
            · refine Or.inr ?_
              by_contra hv
              exact hguard ⟨hr, hv⟩

/-- C6: for every root type, namespace string and leaf field name —
including malformed combinations where a segment names a missing field or
implies indexing into a non-container type — `getStructFieldFromNamespace`
returns normally (the embedded panic marker is never produced) and a
malformed shape is reported as not-found, as in the concrete instance of
traversing an `int` field as a container. -/
theorem c6_getStructFieldFromNamespace_never_panics :
    (∀ (structType : Option GoType) (ns leaf : Str),
      exceptOk (getStructFieldFromNamespace structType ns leaf) = true) ∧
    getStructFieldFromNamespace
      (some (GoType.strukt [("A".toList, GoType.base "int".toList, [])]))
      "T.A[0].B".toList "B".toList = Except.ok none := by
  refine ⟨?_, rfl⟩
  intro structType ns leaf
  cases structType with
  | none => rfl
  | some t0 =>
    simp only [getStructFieldFromNamespace]
    split
    · split
      · simp [exceptOk]
      · exact exceptOk_walkLoop leaf _ _ (Or.inr rfl)
    · simp [exceptOk]

theorem lookupS_setS_self {α : Type} (m : List (Str × α)) (k : Str) (v : α) :
    lookupS (setS m k v) k = some v := by
  induction m with
  | nil => simp [setS, lookupS]
  | cons kv rest ih =>
    by_cases h : kv.1 = k
    · simp [setS, h, lookupS]
    · cases kv with
      | mk k' v' =>
        simp only at h
        simp [setS, h, lookupS, ih]

theorem SetMessage_lookup (vm : ValidationMessages) (p c msg : Str) :
    ∃ cfg, lookupS (SetMessage vm p c msg) p = some cfg ∧
      lookupS cfg.Constraints c = some msg := by
  unfold SetMessage
  cases h : lookupS vm p with
  | none =>
    refine ⟨_, lookupS_setS_self vm p _, ?_⟩
    simp [lookupS]
  | some cfg0 =>
    refine ⟨_, lookupS_setS_self vm p _, ?_⟩
    exact lookupS_setS_self cfg0.Constraints c msg

theorem ResolveMessage_SetMessage (vm : ValidationMessages) (p c msg : Str)
    (ps : List GoVal) (ovs : List Overlay) :
    ResolveMessage (SetMessage vm p c msg) p c ps ovs =
      interpolateSpec msg ps ovs := by
  obtain ⟨cfg, h1, h2⟩ := SetMessage_lookup vm p c msg
  unfold ResolveMessage
  rw [h1]
  simp [h2]

theorem interpolateSpec_nil_template (ps : List GoVal) (ovs : List Overlay) :
    interpolateSpec [] ps ovs = [] := rfl

/-- C10: a registered constraint-specific template that is the empty
string shadows a non-empty path-level default — `ResolveMessage` returns
the empty string — and the orchestrator consequently proceeds to the
per-constraint/global default tiers (here: global default, since no
per-constraint default is registered). -/
theorem c10_empty_constraint_template_shadows_path_default :
    (∀ (vm : ValidationMessages) (p c m : Str) (ps : List GoVal)
        (ovs : List Overlay), m ≠ [] →
      ResolveMessage (SetMessage (SetDefaultMessage vm p m) p c []) p c ps ovs = []) ∧
    (∀ (vm : ValidationMessages) (dm : Overlay)
        (p c ns sf m : Str) (ps : List GoVal), m ≠ [] →
      resolveFailureMessage
        ⟨"Invalid value".toList, [],
          SetMessage (SetDefaultMessage vm p m) p c [], dm⟩
        none ns sf p c ps =
        interpolateSpec "Invalid value".toList ps [dm]) := by
  constructor
  · intro vm p c m ps ovs _
    rw [ResolveMessage_SetMessage]
    rfl
  · intro vm dm p c ns sf m ps _
    unfold resolveFailureMessage
    simp only [getStructFieldFromNamespace]
    rw [ResolveMessage_SetMessage]
    simp [interpolateSpec_nil_template, lookupS]

/-- Closed witness for `c10_empty_constraint_template_shadows_path_default`. -/
theorem c10_witness :
    ResolveMessage
      (SetMessage (SetDefaultMessage [] "user.name".toList "Name is bad".toList)
        "user.name".toList "min".toList [])
      "user.name".toList "min".toList [GoVal.str "name".toList] [] = [] ∧
    resolveFailureMessage
      ⟨"Invalid value".toList, [],
        SetMessage (SetDefaultMessage [] "user.name".toList "Name is bad".toList)
          "user.name".toList "min".toList [], []⟩
      none "T.Name".toList "Name".toList "user.name".toList "min".toList
      [GoVal.str "name".toList] =
      interpolateSpec "Invalid value".toList [GoVal.str "name".toList] [[]] :=
  ⟨c10_empty_constraint_template_shadows_path_default.1 [] "user.name".toList
      "min".toList "Name is bad".toList [GoVal.str "name".toList] [] (by decide),
    c10_empty_constraint_template_shadows_path_default.2 [] []
      "user.name".toList "min".toList "T.Name".toList "Name".toList
      "Name is bad".toList [GoVal.str "name".toList] (by decide)⟩

theorem replaceAll_self (pat new : Str) (hp : pat ≠ []) :
    replaceAll pat new pat = new := by
  cases pat with
  | nil => exact absurd rfl hp
  | cons c cs =>
    rw [replaceAll_cons_pos new ⟨hp, by
      have := prefixB_self_append (c :: cs) []
      simpa using this⟩]
    rw [show ((c :: cs : Str)).drop (c :: cs).length = [] from List.drop_length _]
    rw [replaceAll_nil]
    exact List.append_nil new

/-- C5 counterexample: text introduced by the substitution of `{0}` (the
rendered value `{1}`) IS consumed by the later positional substitution,
contradicting the claim that output of earlier substitutions is never
treated as a placeholder: the result is `X`, not `{1}`. -/
theorem c5_counterexample_reprocessing :
    interpolateParams "{0}".toList
        [GoVal.str "{1}".toList, GoVal.str "X".toList] = "X".toList ∧
    interpolateParams "{0}".toList
        [GoVal.str "{1}".toList, GoVal.str "X".toList] ≠ "{1}".toList := by
  constructor
  · decide
  · decide

/-- C5 amended: each substitution is itself a single pass — a value
placed for a later positional index is not reprocessed by the
already-finished earlier substitutions (for any parameter value `w`,
substituting `{0}` into the rendering of index 1 leaves it literal) — but
a value introduced by an earlier substitution is scanned by the later
substitution stages, as in the second conjunct. -/
theorem c5_single_pass_per_substitution :
    (∀ w : Str, interpolateParams "{1}".toList
        [GoVal.str w, GoVal.str "{0}".toList] = "{0}".toList) ∧
    interpolateParams "{0}".toList
        [GoVal.str "{1}".toList, GoVal.str "X".toList] = "X".toList := by
  constructor
  · intro w
    have expand : interpolateParams "{1}".toList
        [GoVal.str w, GoVal.str "{0}".toList] =
      replaceAll ('{' :: natRepr 1 ++ ['}']) (renderVal (GoVal.str "{0}".toList))
        (replaceAll ('{' :: natRepr 0 ++ ['}']) (renderVal (GoVal.str w))
          (replaceAll "{value}".toList "{0}".toList
            (replaceAll "{field}".toList w "{1}".toList))) := rfl
    rw [expand]
    rw [replaceAll_id_of_not_occurs w (by decide)]
    rw [replaceAll_id_of_not_occurs "{0}".toList (by decide)]
    rw [show ('{' :: natRepr 0 ++ ['}'] : Str) = "{0}".toList from rfl]
    rw [replaceAll_id_of_not_occurs (renderVal (GoVal.str w)) (by decide)]
    rw [show ('{' :: natRepr 1 ++ ['}'] : Str) = "{1}".toList from rfl]
    exact replaceAll_self _ _ (by decide)
  · decide

/-- C4 counterexample: a nil value bound to a positional placeholder is
rendered as `<nil>` (Go's `%v` form of the nil interface), not as the
empty string. -/
theorem c4_counterexample_positional_nil :
    interpolateParams "{1}".toList [GoVal.str "f".toList, GoVal.nil] =
      "<nil>".toList ∧
    interpolateParams "{1}".toList [GoVal.str "f".toList, GoVal.nil] ≠ [] := by
  constructor
  · decide
  · decide

set_option maxHeartbeats 8000000 in
/-- C4 amended: with the parameter list shaped as `CreateValidationParams`
produces it (`[field, value, param]`), a nil value bound to any of the
named placeholders `{field}`/`{value}`/`{param}` renders as the empty
string, but a nil value bound to any of the positional placeholders
`{0}`/`{1}`/`{2}` renders as `<nil>` — Go's `%v` textual form of the nil
interface — not as the empty string. -/
theorem c4_nil_rendering :
    (∀ (p1 p2 : GoVal),
      interpolateParams "{field}".toList [GoVal.nil, p1, p2] = []) ∧
    (∀ (p0 p2 : GoVal),
      interpolateParams "{value}".toList [p0, GoVal.nil, p2] = []) ∧
    (∀ (p0 p1 : GoVal),
      interpolateParams "{param}".toList [p0, p1, GoVal.nil] = []) ∧
    (∀ (p1 p2 : GoVal),
      interpolateParams "{0}".toList [GoVal.nil, p1, p2] = "<nil>".toList) ∧
    (∀ (p0 p2 : GoVal),
      interpolateParams "{1}".toList [p0, GoVal.nil, p2] = "<nil>".toList) ∧
    (∀ (p0 p1 : GoVal),
      interpolateParams "{2}".toList [p0, p1, GoVal.nil] = "<nil>".toList) := by
  refine ⟨?_, ?_, ?_, ?_, ?_, ?_⟩
  · intro p1 p2
    have expand : interpolateParams "{field}".toList [GoVal.nil, p1, p2] =
      replaceAll ('\x7b' :: natRepr 2 ++ ['\x7d']) (renderVal p2)
        (replaceAll ('\x7b' :: natRepr 1 ++ ['\x7d']) (renderVal p1)
          (replaceAll ('\x7b' :: natRepr 0 ++ ['\x7d']) (renderVal GoVal.nil)
            (replaceAll "{param}".toList
              (if p2 = GoVal.nil then [] else renderVal p2)
              (replaceAll "{value}".toList
                (if p1 = GoVal.nil then [] else renderVal p1)
                (replaceAll "{field}".toList [] "{field}".toList))))) := rfl
    rw [expand]
    rw [replaceAll_self "{field}".toList [] (by decide)]
    rw [replaceAll_nil, replaceAll_nil, replaceAll_nil, replaceAll_nil,
      replaceAll_nil]
  · intro p0 p2
    have expand : interpolateParams "{value}".toList [p0, GoVal.nil, p2] =
      replaceAll ('\x7b' :: natRepr 2 ++ ['\x7d']) (renderVal p2)
        (replaceAll ('\x7b' :: natRepr 1 ++ ['\x7d']) (renderVal GoVal.nil)
          (replaceAll ('\x7b' :: natRepr 0 ++ ['\x7d']) (renderVal p0)
            (replaceAll "{param}".toList
              (if p2 = GoVal.nil then [] else renderVal p2)
              (replaceAll "{value}".toList []
                (replaceAll "{field}".toList
                  (if p0 = GoVal.nil then [] else renderVal p0)
                  "{value}".toList))))) := rfl
    rw [expand]
    rw [replaceAll_id_of_not_occurs (if p0 = GoVal.nil then [] else renderVal p0)
      (show occursB "{field}".toList "{value}".toList = false by decide)]
    rw [replaceAll_self "{value}".toList [] (by decide)]
    rw [replaceAll_nil, replaceAll_nil, replaceAll_nil, replaceAll_nil]
  · intro p0 p1
    have expand : interpolateParams "{param}".toList [p0, p1, GoVal.nil] =
      replaceAll ('\x7b' :: natRepr 2 ++ ['\x7d']) (renderVal GoVal.nil)
        (replaceAll ('\x7b' :: natRepr 1 ++ ['\x7d']) (renderVal p1)
          (replaceAll ('\x7b' :: natRepr 0 ++ ['\x7d']) (renderVal p0)
            (replaceAll "{param}".toList []
              (replaceAll "{value}".toList
                (if p1 = GoVal.nil then [] else renderVal p1)
                (replaceAll "{field}".toList
                  (if p0 = GoVal.nil then [] else renderVal p0)
                  "{param}".toList))))) := rfl
    rw [expand]
    rw [replaceAll_id_of_not_occurs (if p0 = GoVal.nil then [] else renderVal p0)
      (show occursB "{field}".toList "{param}".toList = false by decide)]
    rw [replaceAll_id_of_not_occurs (if p1 = GoVal.nil then [] else renderVal p1)
      (show occursB "{value}".toList "{param}".toList = false by decide)]
    rw [replaceAll_self "{param}".toList [] (by decide)]
    rw [replaceAll_nil, replaceAll_nil, replaceAll_nil]
  · intro p1 p2
    have expand : interpolateParams "{0}".toList [GoVal.nil, p1, p2] =
      replaceAll ('\x7b' :: natRepr 2 ++ ['\x7d']) (renderVal p2)
        (replaceAll ('\x7b' :: natRepr 1 ++ ['\x7d']) (renderVal p1)
          (replaceAll ('\x7b' :: natRepr 0 ++ ['\x7d']) (renderVal GoVal.nil)
            (replaceAll "{param}".toList
              (if p2 = GoVal.nil then [] else renderVal p2)
              (replaceAll "{value}".toList
                (if p1 = GoVal.nil then [] else renderVal p1)
                (replaceAll "{field}".toList [] "{0}".toList))))) := rfl
    rw [expand]
    rw [replaceAll_id_of_not_occurs []
      (show occursB "{field}".toList "{0}".toList = false by decide)]
    rw [replaceAll_id_of_not_occurs (if p1 = GoVal.nil then [] else renderVal p1)
      (show occursB "{value}".toList "{0}".toList = false by decide)]
    rw [replaceAll_id_of_not_occurs (if p2 = GoVal.nil then [] else renderVal p2)
      (show occursB "{param}".toList "{0}".toList = false by decide)]
    rw [show ('\x7b' :: natRepr 0 ++ ['\x7d'] : Str) = "{0}".toList from rfl]
    rw [replaceAll_self "{0}".toList (renderVal GoVal.nil) (by decide)]
    rw [show renderVal GoVal.nil = "<nil>".toList from rfl]
    rw [replaceAll_id_of_not_occurs (renderVal p1)
      (show occursB ('\x7b' :: natRepr 1 ++ ['\x7d']) "<nil>".toList = false
        by decide)]
    rw [replaceAll_id_of_not_occurs (renderVal p2)
      (show occursB ('\x7b' :: natRepr 2 ++ ['\x7d']) "<nil>".toList = false
        by decide)]
  · intro p0 p2
    have expand : interpolateParams "{1}".toList [p0, GoVal.nil, p2] =
      replaceAll ('\x7b' :: natRepr 2 ++ ['\x7d']) (renderVal p2)
        (replaceAll ('\x7b' :: natRepr 1 ++ ['\x7d']) (renderVal GoVal.nil)
          (replaceAll ('\x7b' :: natRepr 0 ++ ['\x7d']) (renderVal p0)
            (replaceAll "{param}".toList
              (if p2 = GoVal.nil then [] else renderVal p2)
              (replaceAll "{value}".toList []
                (replaceAll "{field}".toList
                  (if p0 = GoVal.nil then [] else renderVal p0)
                  "{1}".toList))))) := rfl
    rw [expand]
    rw [replaceAll_id_of_not_occurs (if p0 = GoVal.nil then [] else renderVal p0)
      (show occursB "{field}".toList "{1}".toList = false by decide)]
    rw [replaceAll_id_of_not_occurs []
      (show occursB "{value}".toList "{1}".toList = false by decide)]
    rw [replaceAll_id_of_not_occurs (if p2 = GoVal.nil then [] else renderVal p2)
      (show occursB "{param}".toList "{1}".toList = false by decide)]
    rw [replaceAll_id_of_not_occurs (renderVal p0)
      (show occursB ('\x7b' :: natRepr 0 ++ ['\x7d']) "{1}".toList = false
        by decide)]
    rw [show ('\x7b' :: natRepr 1 ++ ['\x7d'] : Str) = "{1}".toList from rfl]
    rw [replaceAll_self "{1}".toList (renderVal GoVal.nil) (by decide)]
    rw [show renderVal GoVal.nil = "<nil>".toList from rfl]
    rw [replaceAll_id_of_not_occurs (renderVal p2)
      (show occursB ('\x7b' :: natRepr 2 ++ ['\x7d']) "<nil>".toList = false
        by decide)]
  · intro p0 p1
    have expand : interpolateParams "{2}".toList [p0, p1, GoVal.nil] =
      replaceAll ('\x7b' :: natRepr 2 ++ ['\x7d']) (renderVal GoVal.nil)
        (replaceAll ('\x7b' :: natRepr 1 ++ ['\x7d']) (renderVal p1)
          (replaceAll ('\x7b' :: natRepr 0 ++ ['\x7d']) (renderVal p0)
            (replaceAll "{param}".toList []
              (replaceAll "{value}".toList
                (if p1 = GoVal.nil then [] else renderVal p1)
                (replaceAll "{field}".toList
                  (if p0 = GoVal.nil then [] else renderVal p0)
                  "{2}".toList))))) := rfl
    rw [expand]
    rw [replaceAll_id_of_not_occurs (if p0 = GoVal.nil then [] else renderVal p0)
      (show occursB "{field}".toList "{2}".toList = false by decide)]
    rw [replaceAll_id_of_not_occurs (if p1 = GoVal.nil then [] else renderVal p1)
      (show occursB "{value}".toList "{2}".toList = false by decide)]
    rw [replaceAll_id_of_not_occurs []
      (show occursB "{param}".toList "{2}".toList = false by decide)]
    rw [replaceAll_id_of_not_occurs (renderVal p0)
      (show occursB ('\x7b' :: natRepr 0 ++ ['\x7d']) "{2}".toList = false
        by decide)]
    rw [replaceAll_id_of_not_occurs (renderVal p1)
      (show occursB ('\x7b' :: natRepr 1 ++ ['\x7d']) "{2}".toList = false
        by decide)]
    rw [show ('\x7b' :: natRepr 2 ++ ['\x7d'] : Str) = "{2}".toList from rfl]
    rw [replaceAll_self "{2}".toList (renderVal GoVal.nil) (by decide)]
    rw [show renderVal GoVal.nil = "<nil>".toList from rfl]

theorem natDigitsAux_fuel :
    ∀ (f g n : Nat), n < f → n < g → natDigitsAux f n = natDigitsAux g n := by
  intro f
  induction f with
  | zero => intro g n h1 _; omega
  | succ f ih =>
    intro g n h1 h2
    cases g with
    | zero => omega
    | succ g =>
      simp only [natDigitsAux]
      by_cases hn : n < 10
      · rw [if_pos hn, if_pos hn]
      · rw [if_neg hn, if_neg hn]
        have hdiv : n / 10 < n := Nat.div_lt_self (by omega) (by omega)
        rw [ih g (n / 10) (by omega) (by omega)]

theorem natRepr_eq (n : Nat) :
    natRepr n =
      if n < 10 then [digitChar n] else natRepr (n / 10) ++ [digitChar (n % 10)] := by
  by_cases hn : n < 10
  · rw [if_pos hn]
    show natDigitsAux (n + 1) n = _
    simp only [natDigitsAux]
    rw [if_pos hn]
  · rw [if_neg hn]
    have hdiv : n / 10 < n := Nat.div_lt_self (by omega) (by omega)
    show natDigitsAux (n + 1) n = _
    simp only [natDigitsAux]
    rw [if_neg hn]
    rw [natDigitsAux_fuel n (n / 10 + 1) (n / 10) (by omega) (by omega)]
    rfl

theorem natRepr_ne_nil (n : Nat) : natRepr n ≠ [] := by
  rw [natRepr_eq]
  by_cases hn : n < 10
  · rw [if_pos hn]; simp
  · rw [if_neg hn]; simp

theorem digitChar_isDigit (d : Nat) : isDigitC (digitChar d) = true := by
  rcases d with _|_|_|_|_|_|_|_|_|d
  · decide
  · decide
  · decide
  · decide
  · decide
  · decide
  · decide
  · decide
  · decide
  · show isDigitC '9' = true
    decide

theorem digitChar_ne_zero (d : Nat) (h1 : 1 ≤ d) : digitChar d ≠ '0' := by
  rcases d with _|_|_|_|_|_|_|_|_|d
  · omega
  · decide
  · decide
  · decide
  · decide
  · decide
  · decide
  · decide
  · decide
  · show ('9' : Char) ≠ '0'
    decide

theorem natRepr_all_digit (n : Nat) : ∀ c ∈ natRepr n, isDigitC c = true := by
  induction n using Nat.strong_induction_on with
  | _ n ih =>
    rw [natRepr_eq]
    by_cases hn : n < 10
    · rw [if_pos hn]
      intro c hc
      simp at hc
      subst hc
      exact digitChar_isDigit n
    · rw [if_neg hn]
      intro c hc
      rcases List.mem_append.mp hc with hc | hc
      · exact ih (n / 10) (Nat.div_lt_self (by omega) (by omega)) c hc
      · simp at hc
        subst hc
        exact digitChar_isDigit (n % 10)

theorem natRepr_head_ne_zero (n : Nat) (h : 1 ≤ n) :
    ∀ hd tl, natRepr n = hd :: tl → hd ≠ '0' := by
  induction n using Nat.strong_induction_on with
  | _ n ih =>
    intro hd tl heq
    rw [natRepr_eq] at heq
    by_cases hn : n < 10
    · rw [if_pos hn] at heq
      have : hd = digitChar n := by
        have := heq
        simp at this
        exact this.1.symm
      subst this
      exact digitChar_ne_zero n h
    · rw [if_neg hn] at heq
      obtain ⟨hd', tl', heq'⟩ : ∃ hd' tl', natRepr (n / 10) = hd' :: tl' := by
        cases hrep : natRepr (n / 10) with
        | nil => exact absurd hrep (natRepr_ne_nil _)
        | cons a b => exact ⟨a, b, rfl⟩
      rw [heq'] at heq
      simp at heq
      have hdiv : n / 10 < n := Nat.div_lt_self (by omega) (by omega)
      have h10 : 1 ≤ n / 10 := Nat.one_le_div_iff (by omega) |>.mpr (by omega)
      have := ih (n / 10) hdiv h10 hd' tl' heq'
      rw [← heq.1]
      exact this

theorem isDigitC_ne_special {c : Char} (h : isDigitC c = true) :
    c ≠ '{' ∧ c ≠ '}' ∧ c ≠ '[' ∧ c ≠ ']' ∧ c ≠ '.' ∧ c ≠ ' ' := by
  refine ⟨?_, ?_, ?_, ?_, ?_, ?_⟩ <;>
    (intro heq; subst heq; exact absurd h (by decide))

theorem occursB_single_brace {w : Str} : ∀ {pre z : Str},
    (∀ c ∈ pre, c ≠ '{') → (∀ c ∈ z, c ≠ '{') →
    prefixB (w ++ ['}']) (z ++ ['}']) = false →
    occursB ('{' :: (w ++ ['}'])) (pre ++ '{' :: (z ++ ['}'])) = false := by
  intro pre
  induction pre with
  | nil =>
    intro z _ hz hpm
    simp only [List.nil_append, occursB, Bool.or_eq_false_iff]
    constructor
    · simp [prefixB, hpm]
    · apply occursB_eq_false_of_head
      intro hmem
      rcases List.mem_append.mp hmem with hmem | hmem
      · exact hz _ hmem rfl
      · simp at hmem
  | cons c rest ih =>
    intro z hpre hz hpm
    have hc : c ≠ '{' := hpre c (List.mem_cons_self c rest)
    have hc' : ('{' : Char) ≠ c := fun h => hc h.symm
    simp only [List.cons_append, occursB, Bool.or_eq_false_iff]
    constructor
    · simp [prefixB, hc']
    · exact ih (fun d hd => hpre d (List.mem_cons_of_mem c hd)) hz hpm

theorem occursB_double_brace : ∀ {pre z : Str},
    (∀ c ∈ pre, c ≠ '{') → (∀ c ∈ z, c ≠ '{') →
    occursB ['{', '{'] (pre ++ '{' :: (z ++ ['}'])) = false := by
  intro pre
  induction pre with
  | nil =>
    intro z _ hz
    simp only [List.nil_append, occursB, Bool.or_eq_false_iff]
    constructor
    · cases z with
      | nil => simp [prefixB]
      | cons z0 ztl =>
        have hz0 : z0 ≠ '{' := hz z0 (List.mem_cons_self _ _)
        have hz0' : ('{' : Char) ≠ z0 := fun h => hz0 h.symm
        simp [prefixB, hz0']
    · apply occursB_eq_false_of_head
      intro hmem
      rcases List.mem_append.mp hmem with hmem | hmem
      · exact hz _ hmem rfl
      · simp at hmem
  | cons c rest ih =>
    intro z hpre hz
    have hc : c ≠ '{' := hpre c (List.mem_cons_self c rest)
    have hc' : ('{' : Char) ≠ c := fun h => hc h.symm
    simp only [List.cons_append, occursB, Bool.or_eq_false_iff]
    constructor
    · simp [prefixB, hc']
    · exact ih (fun d hd => hpre d (List.mem_cons_of_mem c hd)) hz

theorem escAux_id : ∀ (fuel : Nat) (k : Nat) (l : Str), l.length ≤ fuel →
    occursB ['{', '{'] l = false → escAux fuel k l = (l, []) := by
  intro fuel
  induction fuel with
  | zero =>
    intro k l h1 _
    have : l = [] := List.eq_nil_of_length_eq_zero (Nat.le_zero.mp h1)
    subst this
    rfl
  | succ fuel ih =>
    intro k l h1 h2
    cases l with
    | nil => rfl
    | cons c rest =>
      simp only [occursB, Bool.or_eq_false_iff] at h2
      have hnot : ¬ (c = '{' ∧ rest.head? = some '{') := by
        rintro ⟨rfl, hh⟩
        cases rest with
        | nil => simp at hh
        | cons d rest' =>
          simp at hh
          subst hh
          simp [prefixB] at h2
      simp only [escAux, if_neg hnot]
      rw [ih k rest (by simp at h1; omega) h2.2]

theorem escapeExtract_id {l : Str} (h : occursB ['{', '{'] l = false) :
    escapeExtract l = (l, []) :=
  escAux_id l.length 0 l (Nat.le_refl _) h

theorem foldl_named_id (T : Str) :
    ∀ (nvs : List (Str × GoVal)),
      (∀ nv ∈ nvs, occursB ('{' :: (nv.1 ++ ['}'])) T = false) →
      nvs.foldl (fun acc nv =>
        replaceAll ('{' :: (nv.1 ++ ['}']))
          (if nv.2 = GoVal.nil then [] else renderVal nv.2) acc) T = T := by
  intro nvs
  induction nvs with
  | nil => intro _; rfl
  | cons nv rest ih =>
    intro h
    simp only [List.foldl_cons]
    rw [replaceAll_id_of_not_occurs _ (h nv (List.mem_cons_self _ _))]
    exact ih (fun x hx => h x (List.mem_cons_of_mem nv hx))

theorem foldl_pos_id (T : Str) :
    ∀ (xs : List (Nat × GoVal)),
      (∀ ip ∈ xs, occursB ('{' :: (natRepr ip.1 ++ ['}'])) T = false) →
      xs.foldl (fun acc ip =>
        replaceAll ('{' :: (natRepr ip.1 ++ ['}'])) (renderVal ip.2) acc) T = T := by
  intro xs
  induction xs with
  | nil => intro _; rfl
  | cons ip rest ih =>
    intro h
    simp only [List.foldl_cons]
    rw [replaceAll_id_of_not_occurs _ (h ip (List.mem_cons_self _ _))]
    exact ih (fun x hx => h x (List.mem_cons_of_mem ip hx))

theorem namedParams_names {nv : Str × GoVal} {ps : List GoVal}
    (h : nv ∈ namedParams ps) :
    nv.1 = "field".toList ∨ nv.1 = "value".toList ∨ nv.1 = "param".toList := by
  unfold namedParams at h
  rcases List.mem_append.mp h with h | h
  · rcases List.mem_append.mp h with h | h
    · cases hh : ps[0]? with
      | none => rw [hh] at h; simp at h
      | some v => rw [hh] at h; simp at h; left; simp [h]
    · cases hh : ps[1]? with
      | none => rw [hh] at h; simp at h
      | some v => rw [hh] at h; simp at h; right; left; simp [h]
  · cases hh : ps[2]? with
    | none => rw [hh] at h; simp at h
    | some v => rw [hh] at h; simp at h; right; right; simp [h]

theorem interpolateParams_id (T : Str) (ps : List GoVal) (hps : ps ≠ [])
    (hesc : escapeExtract T = (T, []))
    (hnamed : ∀ nv ∈ namedParams ps, occursB ('{' :: (nv.1 ++ ['}'])) T = false)
    (hpos : ∀ ip ∈ ps.enum, occursB ('{' :: (natRepr ip.1 ++ ['}'])) T = false) :
    interpolateParams T ps = T := by
  unfold interpolateParams
  rw [if_neg hps]
  simp only [hesc]
  show List.foldl _ (List.foldl _ (List.foldl _ T (namedParams ps)) ps.enum) [] = T
  simp only [List.foldl_nil]
  rw [foldl_named_id T (namedParams ps) hnamed]
  rw [foldl_pos_id T ps.enum hpos]

theorem enumFrom_mem_lt {α : Type} :
    ∀ (l : List α) (k : Nat) (ip : Nat × α), ip ∈ List.enumFrom k l →
      k ≤ ip.1 ∧ ip.1 < k + l.length := by
  intro l
  induction l with
  | nil => intro k ip h; simp [List.enumFrom] at h
  | cons a rest ih =>
    intro k ip h
    simp only [List.enumFrom] at h
    rcases List.mem_cons.mp h with h | h
    · subst h; simp
    · have := ih (k + 1) ip h
      simp only [List.length_cons]
      omega

theorem mem_enum_lt {α : Type} {l : List α} {ip : Nat × α} (h : ip ∈ l.enum) :
    ip.1 < l.length := by
  have := enumFrom_mem_lt l 0 ip h
  omega

theorem isDigitC_ne_fvp {c : Char} (h : isDigitC c = true) :
    c ≠ 'f' ∧ c ≠ 'v' ∧ c ≠ 'p' := by
  refine ⟨?_, ?_, ?_⟩ <;>
    (intro heq; subst heq; exact absurd h (by decide))

theorem digitChar_inj {d e : Nat} (hd : d < 10) (he : e < 10)
    (h : digitChar d = digitChar e) : d = e := by
  interval_cases d <;> interval_cases e <;> revert h <;> decide

theorem natRepr_length_two {n : Nat} (h : ¬ n < 10) : 2 ≤ (natRepr n).length := by
  rw [natRepr_eq, if_neg h]
  rw [List.length_append]
  have hpos : 0 < (natRepr (n / 10)).length :=
    List.length_pos.mpr (natRepr_ne_nil (n / 10))
  simp only [List.length_cons, List.length_nil]
  omega

theorem natRepr_inj : ∀ (a b : Nat), natRepr a = natRepr b → a = b := by
  intro a
  induction a using Nat.strong_induction_on with
  | _ a ih =>
    intro b h
    by_cases ha : a < 10 <;> by_cases hb : b < 10
    · rw [natRepr_eq a, if_pos ha, natRepr_eq b, if_pos hb] at h
      exact digitChar_inj ha hb (by simpa using h)
    · exfalso
      have h2 := natRepr_length_two hb
      rw [← h, natRepr_eq a, if_pos ha] at h2
      simp only [List.length_cons, List.length_nil] at h2
      omega
    · exfalso
      have h2 := natRepr_length_two ha
      rw [h, natRepr_eq b, if_pos hb] at h2
      simp only [List.length_cons, List.length_nil] at h2
      omega
    · rw [natRepr_eq a, if_neg ha, natRepr_eq b, if_neg hb] at h
      have hdl := congrArg List.dropLast h
      rw [List.dropLast_concat, List.dropLast_concat] at hdl
      have hgl := congrArg List.getLast? h
      rw [List.getLast?_concat, List.getLast?_concat] at hgl
      have hdiv : a / 10 = b / 10 :=
        ih (a / 10) (Nat.div_lt_self (by omega) (by omega)) (b / 10) hdl
      have hmod : a % 10 = b % 10 :=
        digitChar_inj (Nat.mod_lt _ (by omega)) (Nat.mod_lt _ (by omega))
          (by simpa using hgl)
      omega

theorem prefixB_digits_brace : ∀ (di dj B : Str),
    (∀ c ∈ di, isDigitC c = true) → (∀ c ∈ dj, isDigitC c = true) →
    di ≠ dj →
    prefixB (di ++ ['\x7d']) (dj ++ '\x7d' :: B) = false := by
  intro di
  induction di with
  | nil =>
    intro dj B _ hdj hne
    cases dj with
    | nil => exact absurd rfl hne
    | cons d djtl =>
      have hd : ('\x7d' : Char) ≠ d := by
        have := (isDigitC_ne_special (hdj d (List.mem_cons_self _ _))).2.1
        exact fun hh => this hh.symm
      show prefixB ('\x7d' :: []) (d :: (djtl ++ '\x7d' :: B)) = false
      simp only [prefixB]
      rw [if_neg hd]
  | cons a ditl ih =>
    intro dj B hdi hdj hne
    cases dj with
    | nil =>
      have ha : a ≠ '\x7d' :=
        (isDigitC_ne_special (hdi a (List.mem_cons_self _ _))).2.1
      show prefixB (a :: (ditl ++ ['\x7d'])) ('\x7d' :: B) = false
      simp only [prefixB]
      rw [if_neg ha]
    | cons b djtl =>
      show prefixB (a :: (ditl ++ ['\x7d'])) (b :: (djtl ++ '\x7d' :: B)) = false
      simp only [prefixB]
      by_cases hab : a = b
      · rw [if_pos hab]
        refine ih djtl B (fun c hc => hdi c (List.mem_cons_of_mem a hc))
          (fun c hc => hdj c (List.mem_cons_of_mem b hc)) ?_
        intro hh
        exact hne (by rw [hab, hh])
      · rw [if_neg hab]

theorem occursB_single_brace_ctx {w : Str} : ∀ {pre z B : Str},
    (∀ c ∈ pre, c ≠ '\x7b') → (∀ c ∈ z, c ≠ '\x7b') → (∀ c ∈ B, c ≠ '\x7b') →
    prefixB (w ++ ['\x7d']) (z ++ '\x7d' :: B) = false →
    occursB ('\x7b' :: (w ++ ['\x7d'])) (pre ++ '\x7b' :: (z ++ '\x7d' :: B)) = false := by
  intro pre
  induction pre with
  | nil =>
    intro z B _ hz hB hpm
    simp only [List.nil_append, occursB, Bool.or_eq_false_iff]
    constructor
    · simp [prefixB, hpm]
    · apply occursB_eq_false_of_head
      intro hmem
      rcases List.mem_append.mp hmem with hmem | hmem
      · exact hz _ hmem rfl
      · rcases List.mem_cons.mp hmem with hmem | hmem
        · exact absurd hmem (by decide)
        · exact hB _ hmem rfl
  | cons c rest ih =>
    intro z B hpre hz hB hpm
    have hc : c ≠ '\x7b' := hpre c (List.mem_cons_self c rest)
    have hc' : ('\x7b' : Char) ≠ c := fun h => hc h.symm
    simp only [List.cons_append, occursB, Bool.or_eq_false_iff]
    constructor
    · simp [prefixB, hc']
    · exact ih (fun d hd => hpre d (List.mem_cons_of_mem c hd)) hz hB hpm

theorem occursB_double_brace_ctx : ∀ {pre z B : Str},
    (∀ c ∈ pre, c ≠ '\x7b') → (∀ c ∈ z, c ≠ '\x7b') → (∀ c ∈ B, c ≠ '\x7b') →
    occursB ['\x7b', '\x7b'] (pre ++ '\x7b' :: (z ++ '\x7d' :: B)) = false := by
  intro pre
  induction pre with
  | nil =>
    intro z B _ hz hB
    simp only [List.nil_append, occursB, Bool.or_eq_false_iff]
    constructor
    · cases z with
      | nil =>
        show prefixB ['\x7b', '\x7b'] ('\x7b' :: '\x7d' :: B) = false
        simp [prefixB]
      | cons z0 ztl =>
        have hz0 : z0 ≠ '\x7b' := hz z0 (List.mem_cons_self _ _)
        have hz0' : ('\x7b' : Char) ≠ z0 := fun h => hz0 h.symm
        show prefixB ['\x7b', '\x7b'] ('\x7b' :: (z0 :: (ztl ++ '\x7d' :: B))) = false
        simp [prefixB, hz0']
    · apply occursB_eq_false_of_head
      intro hmem
      rcases List.mem_append.mp hmem with hmem | hmem
      · exact hz _ hmem rfl
      · rcases List.mem_cons.mp hmem with hmem | hmem
        · exact absurd hmem (by decide)
        · exact hB _ hmem rfl
  | cons c rest ih =>
    intro z B hpre hz hB
    have hc : c ≠ '\x7b' := hpre c (List.mem_cons_self c rest)
    have hc' : ('\x7b' : Char) ≠ c := fun h => hc h.symm
    simp only [List.cons_append, occursB, Bool.or_eq_false_iff]
    constructor
    · simp [prefixB, hc']
    · exact ih (fun d hd => hpre d (List.mem_cons_of_mem c hd)) hz hB


/-- C8: positional substitution substitutes only in-range plain decimal
indices. For every positional parameter list and every template built
from a brace-free prefix `A`, a placeholder token, and a brace-free
suffix `B`: a leading-zero multi-digit all-digit token such as `{007}`
(first conjunct) and an out-of-range index token `{j}` with
`j ≥ len(params)` (second conjunct) are always left in the output as
literal text — the whole template is returned unchanged. -/
theorem c8_positional_strictness :
    (∀ (ps : List GoVal) (A B z : Str),
      (∀ c ∈ A, c ≠ '\x7b') → (∀ c ∈ B, c ≠ '\x7b') →
      z.head? = some '0' → 2 ≤ z.length → (∀ c ∈ z, isDigitC c = true) →
      interpolateParams (A ++ '\x7b' :: (z ++ '\x7d' :: B)) ps =
        A ++ '\x7b' :: (z ++ '\x7d' :: B)) ∧
    (∀ (ps : List GoVal) (A B : Str) (j : Nat),
      (∀ c ∈ A, c ≠ '\x7b') → (∀ c ∈ B, c ≠ '\x7b') → ps.length ≤ j →
      interpolateParams (A ++ '\x7b' :: (natRepr j ++ '\x7d' :: B)) ps =
        A ++ '\x7b' :: (natRepr j ++ '\x7d' :: B)) := by
  constructor
  · intro ps A B z hA hB hz0 hzlen hzd
    cases z with
    | nil => simp at hz0
    | cons z0 ztl =>
    cases ztl with
    | nil => simp at hzlen
    | cons t0 ttl =>
    have hz0' : z0 = '0' := by simpa using hz0
    subst hz0'
    have hzchars : ∀ c ∈ ('0' :: t0 :: ttl : Str), c ≠ '\x7b' :=
      fun c hc => (isDigitC_ne_special (hzd c hc)).1
    have ht0 : ('\x7d' : Char) ≠ t0 := by
      have := (isDigitC_ne_special (hzd t0 (by simp))).2.1
      exact fun h => this h.symm
    by_cases hps : ps = []
    · subst hps
      unfold interpolateParams
      rw [if_pos rfl]
    · apply interpolateParams_id _ ps hps
      · exact escapeExtract_id (occursB_double_brace_ctx hA hzchars hB)
      · intro nv hmem
        rcases namedParams_names hmem with h | h | h <;> rw [h]
        · apply occursB_single_brace_ctx hA hzchars hB
          show prefixB ('f' :: _) ('0' :: _) = false
          simp [prefixB]
        · apply occursB_single_brace_ctx hA hzchars hB
          show prefixB ('v' :: _) ('0' :: _) = false
          simp [prefixB]
        · apply occursB_single_brace_ctx hA hzchars hB
          show prefixB ('p' :: _) ('0' :: _) = false
          simp [prefixB]
      · intro ip _
        apply occursB_single_brace_ctx hA hzchars hB
        rcases Nat.eq_zero_or_pos ip.1 with h0 | hpos1
        · rw [h0]
          rw [show natRepr 0 = ['0'] from rfl]
          show prefixB ('0' :: ('\x7d' :: []))
            ('0' :: ((t0 :: ttl) ++ '\x7d' :: B)) = false
          simp [prefixB, ht0]
        · obtain ⟨hd, tl, heq⟩ : ∃ hd tl, natRepr ip.1 = hd :: tl := by
            cases hrep : natRepr ip.1 with
            | nil => exact absurd hrep (natRepr_ne_nil _)
            | cons a b => exact ⟨a, b, rfl⟩
          have hhd : hd ≠ '0' := natRepr_head_ne_zero ip.1 hpos1 hd tl heq
          rw [heq]
          show prefixB (hd :: (tl ++ ['\x7d'])) ('0' :: _) = false
          cases hcmp : decide (hd = '0') with
          | true => exact absurd (of_decide_eq_true hcmp) hhd
          | false =>
            simp only [prefixB]
            rw [if_neg (of_decide_eq_false hcmp)]
  · intro ps A B j hA hB hlen
    have hjd : ∀ c ∈ natRepr j, isDigitC c = true := natRepr_all_digit j
    have hzchars : ∀ c ∈ natRepr j, c ≠ '\x7b' :=
      fun c hc => (isDigitC_ne_special (hjd c hc)).1
    obtain ⟨hd, tl, heq⟩ : ∃ hd tl, natRepr j = hd :: tl := by
      cases hrep : natRepr j with
      | nil => exact absurd hrep (natRepr_ne_nil _)
      | cons a b => exact ⟨a, b, rfl⟩
    have hdig : isDigitC hd = true :=
      hjd hd (by rw [heq]; exact List.mem_cons_self _ _)
    have hfvp := isDigitC_ne_fvp hdig
    by_cases hps : ps = []
    · subst hps
      unfold interpolateParams
      rw [if_pos rfl]
    · apply interpolateParams_id _ ps hps
      · exact escapeExtract_id (occursB_double_brace_ctx hA hzchars hB)
      · intro nv hmem
        rcases namedParams_names hmem with h | h | h <;> rw [h]
        · apply occursB_single_brace_ctx hA hzchars hB
          rw [heq]
          show prefixB ('f' :: _) (hd :: _) = false
          simp only [prefixB]
          rw [if_neg (fun hh => hfvp.1 hh.symm)]
        · apply occursB_single_brace_ctx hA hzchars hB
          rw [heq]
          show prefixB ('v' :: _) (hd :: _) = false
          simp only [prefixB]
          rw [if_neg (fun hh => hfvp.2.1 hh.symm)]
        · apply occursB_single_brace_ctx hA hzchars hB
          rw [heq]
          show prefixB ('p' :: _) (hd :: _) = false
          simp only [prefixB]
          rw [if_neg (fun hh => hfvp.2.2 hh.symm)]
      · intro ip hmem
        apply occursB_single_brace_ctx hA hzchars hB
        have hi : ip.1 < ps.length := mem_enum_lt hmem
        have hij : ip.1 ≠ j := by omega
        exact prefixB_digits_brace (natRepr ip.1) (natRepr j) B
          (natRepr_all_digit _) hjd
          (fun hh => hij (natRepr_inj _ _ hh))

/-- Closed witness for `c8_positional_strictness`. -/
theorem c8_witness :
    interpolateParams
        ("Error ".toList ++ '\x7b' :: ("007".toList ++ '\x7d' :: "!".toList))
        [GoVal.str "x".toList] =
      "Error ".toList ++ '\x7b' :: ("007".toList ++ '\x7d' :: "!".toList) ∧
    interpolateParams
        ("Error ".toList ++ '\x7b' :: (natRepr 5 ++ '\x7d' :: "!".toList))
        [GoVal.str "x".toList] =
      "Error ".toList ++ '\x7b' :: (natRepr 5 ++ '\x7d' :: "!".toList) := by
  constructor
  · exact c8_positional_strictness.1 [GoVal.str "x".toList] "Error ".toList
      "!".toList "007".toList (by decide) (by decide) (by decide) (by decide)
      (by decide)
  · exact c8_positional_strictness.2 [GoVal.str "x".toList] "Error ".toList
      "!".toList 5 (by decide) (by decide) (by decide)

theorem takeWhile_append_stop {p : Char → Bool} :
    ∀ (name : Str) (x : Char) (rest : Str), (∀ c ∈ name, p c = true) →
      p x = false → List.takeWhile p (name ++ x :: rest) = name := by
  intro name
  induction name with
  | nil => intro x rest _ hx; simp [List.takeWhile, hx]
  | cons a as ih =>
    intro x rest hall hx
    have ha : p a = true := hall a (List.mem_cons_self _ _)
    simp only [List.cons_append, List.takeWhile, ha]
    show a :: List.takeWhile p (as ++ x :: rest) = a :: as
    rw [ih x rest (fun c hc => hall c (List.mem_cons_of_mem a hc)) hx]

theorem namedScanAux_nil (f : Nat) (t : Overlay) : namedScanAux f t [] = [] := by
  cases f <;> rfl

theorem posScanAux_nil (f : Nat) (ps : List GoVal) : posScanAux f ps [] = [] := by
  cases f <;> rfl

theorem namedScanAux_exact (table : Overlay) (name : Str)
    (hnb : ∀ c ∈ name, (c ≠ '{' ∧ c ≠ '}' : Bool) = true)
    (hnd : (name.head?.map isDigitC).getD false = false)
    (v : GoVal) (hl : lookupS table name = some v) :
    ∀ (fuel : Nat), 1 ≤ fuel →
      namedScanAux fuel table ('{' :: (name ++ ['}'])) = renderSpec v := by
  intro fuel hf
  cases fuel with
  | zero => omega
  | succ fuel =>
    have hdrop : ∀ nm : Str, List.drop (nm.length + 1) (nm ++ ['}']) = ([] : Str) := by
      intro nm
      induction nm with
      | nil => rfl
      | cons a as ih =>
        show List.drop (as.length + 1 + 1) (a :: (as ++ ['}'])) = []
        rw [List.drop_succ_cons]
        exact ih
    simp only [namedScanAux]
    rw [if_pos trivial]
    rw [takeWhile_append_stop name '}' [] hnb (by decide)]
    rw [List.drop_left name ['}']]
    rw [show (['}'] : Str).head? = some '}' from rfl]
    rw [if_pos rfl]
    rw [if_neg (by simp [hnd])]
    rw [hl, hdrop]
    show renderSpec v ++ namedScanAux fuel table [] = renderSpec v
    rw [namedScanAux_nil]
    exact List.append_nil _

theorem posScanAux_id (ps : List GoVal) :
    ∀ (fuel : Nat) (l : Str), (∀ c ∈ l, c ≠ '{') → posScanAux fuel ps l = l := by
  intro fuel
  induction fuel with
  | zero => intro l _; rfl
  | succ fuel ih =>
    intro l h
    cases l with
    | nil => rfl
    | cons c rest =>
      have hc : c ≠ '{' := h c (List.mem_cons_self _ _)
      simp only [posScanAux]
      rw [if_neg hc]
      rw [ih rest (fun d hd => h d (List.mem_cons_of_mem c hd))]

/-- C9: custom parameter overlays take precedence over the built-in named
parameters and later overlays win: in the merged table the name resolves
to the last overlay's value for any positional list, and end-to-end the
template `{field}` interpolates to the later overlay's value (stated for
overlay values whose rendering contains no `{`, which would otherwise be
rescanned by the positional stage). -/
theorem c9_custom_overlay_precedence :
    (∀ (ps : List GoVal) (n : Str) (v w : GoVal),
      lookupS (buildTable ps [[(n, v)], [(n, w)]]) n = some w) ∧
    (∀ (ps : List GoVal) (v w : GoVal), 0 < ps.length →
      (∀ c ∈ renderSpec w, c ≠ '{') →
      interpolateSpec "{field}".toList ps
        [[("field".toList, v)], [("field".toList, w)]] = renderSpec w) := by
  have htab : ∀ (ps : List GoVal) (n : Str) (v w : GoVal),
      lookupS (buildTable ps [[(n, v)], [(n, w)]]) n = some w := by
    intro ps n v w
    show lookupS (setS (setS (namedParams ps) n v) n w) n = some w
    exact lookupS_setS_self _ n w
  refine ⟨htab, ?_⟩
  intro ps v w _ hw
  unfold interpolateSpec
  rw [show escapeExtract "{field}".toList = ("{field}".toList, []) from rfl]
  show List.foldl _ (posScanAux _ ps (namedScanAux _ _ "{field}".toList)) [] = _
  rw [List.foldl_nil]
  rw [show ("{field}".toList : Str) = '{' :: ("field".toList ++ ['}']) from rfl]
  rw [namedScanAux_exact _ _ (by decide) (by decide) w
    (htab ps "field".toList v w) _ (by simp)]
  exact posScanAux_id ps _ (renderSpec w) hw

/-- Closed witness for `c9_custom_overlay_precedence`. -/
theorem c9_witness :
    interpolateSpec "{field}".toList [GoVal.str "orig".toList]
      [[("field".toList, GoVal.str "X".toList)],
       [("field".toList, GoVal.str "OVERRIDE".toList)]] = "OVERRIDE".toList :=
  c9_custom_overlay_precedence.2 [GoVal.str "orig".toList]
    (GoVal.str "X".toList) (GoVal.str "OVERRIDE".toList) (by decide) (by decide)

/-! ## Step equations and invariants of the path-normalizer scanners -/

theorem length_dropWhile_le (p : Char → Bool) : ∀ l : Str, (l.dropWhile p).length ≤ l.length := by
  intro l
  induction l with
  | nil => simp
  | cons a as ih =>
    rw [List.dropWhile_cons]
    by_cases hp : p a = true
    · rw [if_pos hp]
      exact Nat.le_succ_of_le ih
    · rw [if_neg hp]

theorem bpAux_fuel :
    ∀ (f g : Nat) (l : Str), l.length ≤ f → l.length ≤ g → bpAux f l = bpAux g l := by
  intro f
  induction f with
  | zero =>
    intro g l h1 _
    have : l = [] := List.eq_nil_of_length_eq_zero (Nat.le_zero.mp h1)
    subst this
    cases g <;> rfl
  | succ f ih =>
    intro g l h1 h2
    cases l with
    | nil => cases g <;> rfl
    | cons c rest =>
      cases g with
      | zero => simp at h2
      | succ g =>
        simp only [bpAux]
        simp only [List.length_cons] at h1 h2
        by_cases hc : c = '['
        · rw [if_pos hc, if_pos hc]
          by_cases hm : rest.takeWhile isDigitC ≠ [] ∧
              (rest.drop (rest.takeWhile isDigitC).length).head? = some ']'
          · rw [if_pos hm, if_pos hm]
            have hlen : (rest.drop ((rest.takeWhile isDigitC).length + 1)).length ≤ rest.length := by
              simp only [List.length_drop]
              omega
            rw [ih g _ (by omega) (by omega)]
          · rw [if_neg hm, if_neg hm]
            rw [ih g rest (by omega) (by omega)]
        · rw [if_neg hc, if_neg hc]
          rw [ih g rest (by omega) (by omega)]

theorem bracketPass_cons_match {rest : Str}
    (hm : rest.takeWhile isDigitC ≠ [] ∧
      (rest.drop (rest.takeWhile isDigitC).length).head? = some ']') :
    bracketPass ('[' :: rest) =
      '[' :: ']' :: bracketPass (rest.drop ((rest.takeWhile isDigitC).length + 1)) := by
  show bpAux (rest.length + 1) ('[' :: rest) = _
  simp only [bpAux]
  rw [if_pos trivial, if_pos hm]
  have hlen : (rest.drop ((rest.takeWhile isDigitC).length + 1)).length ≤ rest.length := by
    simp only [List.length_drop]
    omega
  rw [bpAux_fuel rest.length (rest.drop ((rest.takeWhile isDigitC).length + 1)).length _
    hlen (Nat.le_refl _)]
  rfl

theorem bracketPass_cons_nomatch {rest : Str}
    (hm : ¬ (rest.takeWhile isDigitC ≠ [] ∧
      (rest.drop (rest.takeWhile isDigitC).length).head? = some ']')) :
    bracketPass ('[' :: rest) = '[' :: bracketPass rest := by
  show bpAux (rest.length + 1) ('[' :: rest) = _
  simp only [bpAux]
  rw [if_pos trivial, if_neg hm]
  rw [bpAux_fuel rest.length rest.length rest (Nat.le_refl _) (Nat.le_refl _)]
  rfl

theorem bracketPass_cons_ne {c : Char} (rest : Str) (hc : c ≠ '[') :
    bracketPass (c :: rest) = c :: bracketPass rest := by
  show bpAux (rest.length + 1) (c :: rest) = _
  simp only [bpAux]
  rw [if_neg hc]
  rfl

theorem bracketPass_head (c : Char) (rest : Str) :
    (bracketPass (c :: rest)).head? = some c := by
  by_cases hc : c = '['
  · subst hc
    by_cases hm : rest.takeWhile isDigitC ≠ [] ∧
        (rest.drop (rest.takeWhile isDigitC).length).head? = some ']'
    · rw [bracketPass_cons_match hm]; rfl
    · rw [bracketPass_cons_nomatch hm]; rfl
  · rw [bracketPass_cons_ne rest hc]; rfl

theorem dcAux_fuel :
    ∀ (f g : Nat) (l : Str), l.length ≤ f → l.length ≤ g → dcAux f l = dcAux g l := by
  intro f
  induction f with
  | zero =>
    intro g l h1 _
    have : l = [] := List.eq_nil_of_length_eq_zero (Nat.le_zero.mp h1)
    subst this
    cases g <;> rfl
  | succ f ih =>
    intro g l h1 h2
    cases l with
    | nil => cases g <;> rfl
    | cons c rest =>
      cases g with
      | zero => simp at h2
      | succ g =>
        simp only [dcAux]
        simp only [List.length_cons] at h1 h2
        by_cases hc : c = '.'
        · rw [if_pos hc, if_pos hc]
          have hd := length_dropWhile_le (fun d => d = '.') rest
          rw [ih g _ (by omega) (by omega)]
        · rw [if_neg hc, if_neg hc]
          rw [ih g rest (by omega) (by omega)]

theorem dotCollapse_cons_dot (rest : Str) :
    dotCollapse ('.' :: rest) = '.' :: dotCollapse (rest.dropWhile (fun d => d = '.')) := by
  show dcAux (rest.length + 1) ('.' :: rest) = _
  simp only [dcAux]
  rw [if_pos trivial]
  have hd := length_dropWhile_le (fun d => d = '.') rest
  rw [dcAux_fuel rest.length (rest.dropWhile (fun d => d = '.')).length _ hd (Nat.le_refl _)]
  rfl

theorem dotCollapse_cons_ne {c : Char} (rest : Str) (hc : c ≠ '.') :
    dotCollapse (c :: rest) = c :: dotCollapse rest := by
  show dcAux (rest.length + 1) (c :: rest) = _
  simp only [dcAux]
  rw [if_neg hc]
  rfl

theorem dotCollapse_head (c : Char) (rest : Str) :
    (dotCollapse (c :: rest)).head? = some c := by
  by_cases hc : c = '.'
  · subst hc; rw [dotCollapse_cons_dot]; rfl
  · rw [dotCollapse_cons_ne rest hc]; rfl

theorem getLast?_cons_of_ne_nil {c : Char} {l : Str} (h : l ≠ []) :
    (c :: l).getLast? = l.getLast? := by
  cases l with
  | nil => exact absurd rfl h
  | cons d r => exact List.getLast?_cons_cons

theorem getLast?_suffix : ∀ (a : Str) {b : Str}, b ≠ [] → (a ++ b).getLast? = b.getLast? := by
  intro a
  induction a with
  | nil => intro b _; rfl
  | cons c as ih =>
    intro b hb
    rw [List.cons_append]
    rw [getLast?_cons_of_ne_nil (by simp [hb])]
    exact ih hb

theorem drop_getLast? {l : Str} {n : Nat} (h : l.drop n ≠ []) :
    (l.drop n).getLast? = l.getLast? := by
  conv_rhs => rw [← List.take_append_drop n l]
  rw [getLast?_suffix (l.take n) h]

theorem dropWhile_getLast? {p : Char → Bool} {l : Str} (h : l.dropWhile p ≠ []) :
    (l.dropWhile p).getLast? = l.getLast? := by
  conv_rhs => rw [← List.takeWhile_append_dropWhile (p := p) (l := l)]
  rw [getLast?_suffix (l.takeWhile p) h]

theorem dropWhile_head_false {p : Char → Bool} :
    ∀ {l : Str} {c : Char} {r : Str}, l.dropWhile p = c :: r → p c = false := by
  intro l
  induction l with
  | nil => intro c r h; simp at h
  | cons a as ih =>
    intro c r h
    rw [List.dropWhile_cons] at h
    by_cases hp : p a = true
    · rw [if_pos hp] at h
      exact ih h
    · rw [if_neg hp] at h
      cases h
      simpa using hp

theorem dropWhile_id {p : Char → Bool} {l : Str}
    (h : ∀ c r, l = c :: r → p c = false) : l.dropWhile p = l := by
  cases l with
  | nil => rfl
  | cons a as =>
    rw [List.dropWhile_cons, if_neg (by simp [h a as rfl])]

theorem bracketPass_ne_nil {c : Char} (rest : Str) : bracketPass (c :: rest) ≠ [] := by
  intro h
  have := bracketPass_head c rest
  rw [h] at this
  simp at this

theorem dotCollapse_ne_nil {c : Char} (rest : Str) : dotCollapse (c :: rest) ≠ [] := by
  intro h
  have := dotCollapse_head c rest
  rw [h] at this
  simp at this

theorem bracketPass_mem :
    ∀ (n : Nat) (l : Str), l.length ≤ n → ∀ c ∈ bracketPass l, c ∈ l ∨ c = '[' ∨ c = ']' := by
  intro n
  induction n with
  | zero =>
    intro l h1 c hc
    have : l = [] := List.eq_nil_of_length_eq_zero (Nat.le_zero.mp h1)
    subst this
    simp [bracketPass, bpAux] at hc
  | succ n ih =>
    intro l h1 c hc
    cases l with
    | nil => simp [bracketPass, bpAux] at hc
    | cons a rest =>
      simp only [List.length_cons] at h1
      by_cases ha : a = '['
      · subst ha
        by_cases hm : rest.takeWhile isDigitC ≠ [] ∧
            (rest.drop (rest.takeWhile isDigitC).length).head? = some ']'
        · rw [bracketPass_cons_match hm] at hc
          rcases List.mem_cons.mp hc with hc | hc
          · right; left; exact hc
          rcases List.mem_cons.mp hc with hc | hc
          · right; right; exact hc
          · have hlen : (rest.drop ((rest.takeWhile isDigitC).length + 1)).length ≤ n := by
              simp only [List.length_drop]
              omega
            rcases ih _ hlen c hc with h | h
            · left
              exact List.mem_cons_of_mem _ (List.mem_of_mem_drop h)
            · right; exact h
        · rw [bracketPass_cons_nomatch hm] at hc
          rcases List.mem_cons.mp hc with hc | hc
          · right; left; exact hc
          · rcases ih rest (by omega) c hc with h | h
            · left; exact List.mem_cons_of_mem _ h
            · right; exact h
      · rw [bracketPass_cons_ne rest ha] at hc
        rcases List.mem_cons.mp hc with hc | hc
        · left; rw [hc]; exact List.mem_cons_self _ _
        · rcases ih rest (by omega) c hc with h | h
          · left; exact List.mem_cons_of_mem _ h
          · right; exact h

theorem dotCollapse_mem :
    ∀ (n : Nat) (l : Str), l.length ≤ n → ∀ c ∈ dotCollapse l, c ∈ l ∨ c = '.' := by
  intro n
  induction n with
  | zero =>
    intro l h1 c hc
    have : l = [] := List.eq_nil_of_length_eq_zero (Nat.le_zero.mp h1)
    subst this
    simp [dotCollapse, dcAux] at hc
  | succ n ih =>
    intro l h1 c hc
    cases l with
    | nil => simp [dotCollapse, dcAux] at hc
    | cons a rest =>
      simp only [List.length_cons] at h1
      by_cases ha : a = '.'
      · subst ha
        rw [dotCollapse_cons_dot] at hc
        rcases List.mem_cons.mp hc with hc | hc
        · right; exact hc
        · have hlen : (rest.dropWhile (fun d => d = '.')).length ≤ n := by
            have := length_dropWhile_le (fun d => d = '.') rest
            omega
          rcases ih _ hlen c hc with h | h
          · left
            refine List.mem_cons_of_mem _ ?_
            have hsub := List.dropWhile_sublist (l := rest) (p := fun d => d = '.')
            exact hsub.mem h
          · right; exact h
      · rw [dotCollapse_cons_ne rest ha] at hc
        rcases List.mem_cons.mp hc with hc | hc
        · left; rw [hc]; exact List.mem_cons_self _ _
        · rcases ih rest (by omega) c hc with h | h
          · left; exact List.mem_cons_of_mem _ h
          · right; exact h

theorem bracketPass_append_digits :
    ∀ {ds : Str} (r : Str), (∀ c ∈ ds, isDigitC c = true) →
      bracketPass (ds ++ r) = ds ++ bracketPass r := by
  intro ds
  induction ds with
  | nil => intro r _; rfl
  | cons d rest ih =>
    intro r hall
    have hd : isDigitC d = true := hall d (List.mem_cons_self _ _)
    have hne : d ≠ '[' := (isDigitC_ne_special hd).2.2.1
    rw [List.cons_append, bracketPass_cons_ne _ hne]
    rw [ih r (fun c hc => hall c (List.mem_cons_of_mem d hc))]
    rfl

theorem dotCollapse_append_nondots :
    ∀ {ds : Str} (r : Str), (∀ c ∈ ds, c ≠ '.') →
      dotCollapse (ds ++ r) = ds ++ dotCollapse r := by
  intro ds
  induction ds with
  | nil => intro r _; rfl
  | cons d rest ih =>
    intro r hall
    have hne : d ≠ '.' := hall d (List.mem_cons_self _ _)
    rw [List.cons_append, dotCollapse_cons_ne _ hne]
    rw [ih r (fun c hc => hall c (List.mem_cons_of_mem d hc))]
    rfl

theorem takeWhile_all {p : Char → Bool} :
    ∀ {l : Str}, (∀ c ∈ l, p c = true) → l.takeWhile p = l := by
  intro l
  induction l with
  | nil => intro _; rfl
  | cons a as ih =>
    intro h
    rw [List.takeWhile_cons, if_pos (h a (List.mem_cons_self _ _))]
    rw [ih (fun c hc => h c (List.mem_cons_of_mem a hc))]

theorem drop_takeWhile_length (p : Char → Bool) (l : Str) :
    l.drop (l.takeWhile p).length = l.dropWhile p := by
  calc l.drop (l.takeWhile p).length
      = (l.takeWhile p ++ l.dropWhile p).drop (l.takeWhile p).length := by
        rw [List.takeWhile_append_dropWhile]
    _ = l.dropWhile p := List.drop_left _ _

theorem brMatchAt_cons_ne {c : Char} (rest : Str) (hc : c ≠ '[') :
    brMatchAt (c :: rest) = false := by
  simp [brMatchAt, hc]

theorem brMatchAt_false_iff (rest : Str) :
    brMatchAt ('[' :: rest) = false ↔
    ¬ (rest.takeWhile isDigitC ≠ [] ∧
       (rest.drop (rest.takeWhile isDigitC).length).head? = some ']') := by
  rw [show brMatchAt ('[' :: rest) =
    decide ('[' = '[' ∧ rest.takeWhile isDigitC ≠ [] ∧
      (rest.drop (rest.takeWhile isDigitC).length).head? = some ']') from rfl]
  rw [decide_eq_false_iff_not]
  constructor
  · intro h hcon
    exact h ⟨rfl, hcon.1, hcon.2⟩
  · intro h hcon
    exact h ⟨hcon.2.1, hcon.2.2⟩

theorem brMatchAt_elim {rest : Str} (h : brMatchAt ('[' :: rest) = false) :
    ¬ (rest.takeWhile isDigitC ≠ [] ∧
      (rest.drop (rest.takeWhile isDigitC).length).head? = some ']') :=
  (brMatchAt_false_iff rest).mp h

theorem noBrB_cons_elim {c : Char} {rest : Str} (h : noBrB (c :: rest) = true) :
    brMatchAt (c :: rest) = false ∧ noBrB rest = true := by
  simp only [noBrB, Bool.and_eq_true, Bool.not_eq_true'] at h
  exact h

theorem noBrB_drop : ∀ (k : Nat) (l : Str), noBrB l = true → noBrB (l.drop k) = true := by
  intro k
  induction k with
  | zero => intro l h; exact h
  | succ k ih =>
    intro l h
    cases l with
    | nil => rfl
    | cons c rest =>
      rw [List.drop_succ_cons]
      exact ih rest (noBrB_cons_elim h).2

theorem noBrB_dropWhile {p : Char → Bool} {l : Str} (h : noBrB l = true) :
    noBrB (l.dropWhile p) = true := by
  rw [← drop_takeWhile_length p l]
  exact noBrB_drop _ l h

theorem bracketPass_id_of_noBr : ∀ (l : Str), noBrB l = true → bracketPass l = l := by
  intro l
  induction l with
  | nil => intro _; rfl
  | cons c rest ih =>
    intro h
    obtain ⟨h1, h2⟩ := noBrB_cons_elim h
    by_cases hc : c = '['
    · subst hc
      rw [bracketPass_cons_nomatch (brMatchAt_elim h1), ih h2]
    · rw [bracketPass_cons_ne rest hc, ih h2]

theorem brMatchAt_cons_of (ds Y : Str) (hds : ∀ c ∈ ds, isDigitC c = true)
    (hY : ∀ e t, Y = e :: t → isDigitC e = false ∧ (ds ≠ [] → e ≠ ']')) :
    brMatchAt ('[' :: (ds ++ Y)) = false := by
  cases hYc : Y with
  | nil =>
    subst hYc
    rw [List.append_nil]
    have htw : ds.takeWhile isDigitC = ds := takeWhile_all hds
    rw [brMatchAt_false_iff]
    intro hcon
    have h2 := hcon.2
    rw [htw, List.drop_length] at h2
    simp at h2
  | cons e t =>
    subst hYc
    obtain ⟨he1, he2⟩ := hY e t rfl
    have htw : (ds ++ e :: t).takeWhile isDigitC = ds :=
      takeWhile_append_stop ds e t hds (by simpa using he1)
    rw [brMatchAt_false_iff]
    intro hcon
    have h2 := hcon.2
    rw [htw, List.drop_left] at h2
    by_cases hd : ds = []
    · rw [htw] at hcon
      exact hcon.1 hd
    · have he3 : e ≠ ']' := he2 hd
      simp at h2
      exact he3 h2

theorem noBrB_bracketPass :
    ∀ (n : Nat) (l : Str), l.length ≤ n → noBrB (bracketPass l) = true := by
  intro n
  induction n with
  | zero =>
    intro l h
    have : l = [] := List.eq_nil_of_length_eq_zero (Nat.le_zero.mp h)
    subst this
    rfl
  | succ n ih =>
    intro l h
    cases l with
    | nil => rfl
    | cons a rest =>
      simp only [List.length_cons] at h
      by_cases ha : a = '['
      · subst ha
        by_cases hm : rest.takeWhile isDigitC ≠ [] ∧
            (rest.drop (rest.takeWhile isDigitC).length).head? = some ']'
        · rw [bracketPass_cons_match hm]
          have hout : noBrB (bracketPass
              (rest.drop ((rest.takeWhile isDigitC).length + 1))) = true := by
            apply ih
            simp only [List.length_drop]
            omega
          have hb1 : brMatchAt ('[' :: ']' ::
              bracketPass (rest.drop ((rest.takeWhile isDigitC).length + 1))) = false := by
            rw [brMatchAt_false_iff]
            intro hcon
            apply hcon.1
            rw [List.takeWhile_cons, if_neg (by decide)]
          have hb2 : brMatchAt (']' ::
              bracketPass (rest.drop ((rest.takeWhile isDigitC).length + 1))) = false :=
            brMatchAt_cons_ne _ (by decide)
          simp [noBrB, hb1, hb2, hout]
        · rw [bracketPass_cons_nomatch hm]
          have hout : noBrB (bracketPass rest) = true := ih rest (by omega)
          have hds : ∀ c ∈ rest.takeWhile isDigitC, isDigitC c = true :=
            fun c hc => List.mem_takeWhile_imp hc
          have hsplit : bracketPass rest =
              rest.takeWhile isDigitC ++ bracketPass (rest.dropWhile isDigitC) := by
            conv_lhs => rw [← List.takeWhile_append_dropWhile (p := isDigitC) (l := rest)]
            exact bracketPass_append_digits _ hds
          have hb : brMatchAt ('[' :: bracketPass rest) = false := by
            rw [hsplit]
            apply brMatchAt_cons_of _ _ hds
            intro e t het
            cases hdw : rest.dropWhile isDigitC with
            | nil => rw [hdw] at het; simp [bracketPass, bpAux] at het
            | cons e0 r0 =>
              have he0 : isDigitC e0 = false := dropWhile_head_false hdw
              have hhead : (bracketPass (e0 :: r0)).head? = some e0 := bracketPass_head _ _
              rw [hdw] at het
              rw [het] at hhead
              simp at hhead
              subst hhead
              refine ⟨he0, ?_⟩
              intro hds_ne
              have := hm
              rw [drop_takeWhile_length isDigitC rest, hdw] at this
              intro he
              exact this ⟨hds_ne, by rw [he]; rfl⟩
          simp [noBrB, hb, hout]
      · rw [bracketPass_cons_ne rest ha]
        have hout : noBrB (bracketPass rest) = true := ih rest (by omega)
        have hb := brMatchAt_cons_ne (bracketPass rest) ha
        simp [noBrB, hb, hout]

theorem noBrB_dotCollapse :
    ∀ (n : Nat) (l : Str), l.length ≤ n → noBrB l = true →
      noBrB (dotCollapse l) = true := by
  intro n
  induction n with
  | zero =>
    intro l h _
    have : l = [] := List.eq_nil_of_length_eq_zero (Nat.le_zero.mp h)
    subst this
    rfl
  | succ n ih =>
    intro l h hno
    cases l with
    | nil => rfl
    | cons a rest =>
      simp only [List.length_cons] at h
      obtain ⟨h1, h2⟩ := noBrB_cons_elim hno
      by_cases ha : a = '.'
      · subst ha
        rw [dotCollapse_cons_dot]
        have hrest2 : noBrB (rest.dropWhile (fun d => d = '.')) = true :=
          noBrB_dropWhile h2
        have hout : noBrB (dotCollapse (rest.dropWhile (fun d => d = '.'))) = true := by
          apply ih _ _ hrest2
          have := length_dropWhile_le (fun d => d = '.') rest
          omega
        have hb : brMatchAt ('.' :: dotCollapse (rest.dropWhile (fun d => d = '.'))) = false :=
          brMatchAt_cons_ne _ (by decide)
        simp [noBrB, hb, hout]
      · by_cases ha2 : a = '['
        · subst ha2
          rw [dotCollapse_cons_ne rest (by decide)]
          have hout : noBrB (dotCollapse rest) = true := ih rest (by omega) h2
          have hm := brMatchAt_elim h1
          have hds : ∀ c ∈ rest.takeWhile isDigitC, isDigitC c = true :=
            fun c hc => List.mem_takeWhile_imp hc
          have hsplit : dotCollapse rest =
              rest.takeWhile isDigitC ++ dotCollapse (rest.dropWhile isDigitC) := by
            conv_lhs => rw [← List.takeWhile_append_dropWhile (p := isDigitC) (l := rest)]
            exact dotCollapse_append_nondots _
              (fun c hc => (isDigitC_ne_special (hds c hc)).2.2.2.2.1)
          have hb : brMatchAt ('[' :: dotCollapse rest) = false := by
            rw [hsplit]
            apply brMatchAt_cons_of _ _ hds
            intro e t het
            cases hdw : rest.dropWhile isDigitC with
            | nil => rw [hdw] at het; simp [dotCollapse, dcAux] at het
            | cons e0 r0 =>
              have he0 : isDigitC e0 = false := dropWhile_head_false hdw
              have hhead : (dotCollapse (e0 :: r0)).head? = some e0 := dotCollapse_head _ _
              rw [hdw] at het
              rw [het] at hhead
              simp at hhead
              subst hhead
              refine ⟨he0, ?_⟩
              intro hds_ne
              have hm2 := hm
              rw [drop_takeWhile_length isDigitC rest, hdw] at hm2
              intro he
              exact hm2 ⟨hds_ne, by rw [he]; rfl⟩
          simp [noBrB, hb, hout]
        · rw [dotCollapse_cons_ne rest ha]
          have hout : noBrB (dotCollapse rest) = true := ih rest (by omega) h2
          have hb := brMatchAt_cons_ne (dotCollapse rest) ha2
          simp [noBrB, hb, hout]

theorem ddMatchAt_cons_ne {c : Char} (rest : Str) (hc : c ≠ '.') :
    ddMatchAt (c :: rest) = false := by
  cases rest with
  | nil => rfl
  | cons d r => exact decide_eq_false (fun hcon => hc hcon.1)

theorem ddMatchAt_dot_head (out : Str)
    (h : ∀ d r, out = d :: r → d ≠ '.') : ddMatchAt ('.' :: out) = false := by
  cases out with
  | nil => rfl
  | cons d r => exact decide_eq_false (fun hcon => h d r rfl hcon.2)

theorem noDDB_cons_elim {c : Char} {rest : Str} (h : noDDB (c :: rest) = true) :
    ddMatchAt (c :: rest) = false ∧ noDDB rest = true := by
  simp only [noDDB, Bool.and_eq_true, Bool.not_eq_true'] at h
  exact h

theorem dotCollapse_eq_nil {l : Str} (h : dotCollapse l = []) : l = [] := by
  cases l with
  | nil => rfl
  | cons c rest => exact absurd h (dotCollapse_ne_nil rest)

theorem bracketPass_eq_nil {l : Str} (h : bracketPass l = []) : l = [] := by
  cases l with
  | nil => rfl
  | cons c rest => exact absurd h (bracketPass_ne_nil rest)

theorem noDDB_dotCollapse :
    ∀ (n : Nat) (l : Str), l.length ≤ n → noDDB (dotCollapse l) = true := by
  intro n
  induction n with
  | zero =>
    intro l h
    have : l = [] := List.eq_nil_of_length_eq_zero (Nat.le_zero.mp h)
    subst this
    rfl
  | succ n ih =>
    intro l h
    cases l with
    | nil => rfl
    | cons a rest =>
      simp only [List.length_cons] at h
      by_cases ha : a = '.'
      · subst ha
        rw [dotCollapse_cons_dot]
        have hout : noDDB (dotCollapse (rest.dropWhile (fun d => d = '.'))) = true := by
          apply ih
          have := length_dropWhile_le (fun d => d = '.') rest
          omega
        have hdd : ddMatchAt ('.' :: dotCollapse (rest.dropWhile (fun d => d = '.'))) = false := by
          apply ddMatchAt_dot_head
          intro d r hdr
          cases hdw : rest.dropWhile (fun c => c = '.') with
          | nil =>
            rw [hdw] at hdr
            simp [dotCollapse, dcAux] at hdr
          | cons e0 r0 =>
            have he0 : decide (e0 = '.') = false := dropWhile_head_false hdw
            have hhead : (dotCollapse (e0 :: r0)).head? = some e0 := dotCollapse_head _ _
            rw [hdw] at hdr
            rw [hdr] at hhead
            simp at hhead
            subst hhead
            exact of_decide_eq_false he0
        simp [noDDB, hdd, hout]
      · rw [dotCollapse_cons_ne rest ha]
        have hout : noDDB (dotCollapse rest) = true := ih rest (by omega)
        have hdd := ddMatchAt_cons_ne (dotCollapse rest) ha
        simp [noDDB, hdd, hout]

theorem dotCollapse_id_of_noDD : ∀ (l : Str), noDDB l = true → dotCollapse l = l := by
  intro l
  induction l with
  | nil => intro _; rfl
  | cons a rest ih =>
    intro h
    obtain ⟨h1, h2⟩ := noDDB_cons_elim h
    by_cases ha : a = '.'
    · subst ha
      rw [dotCollapse_cons_dot]
      have hdw : rest.dropWhile (fun d => d = '.') = rest := by
        apply dropWhile_id
        intro c r hcr
        subst hcr
        have h1' : decide ('.' = '.' ∧ c = '.') = false := h1
        by_cases hcdot : c = '.'
        · subst hcdot
          simp at h1'
        · exact decide_eq_false hcdot
      rw [hdw, ih h2]
    · rw [dotCollapse_cons_ne rest ha, ih h2]

theorem bracketPass_getLast :
    ∀ (n : Nat) (l : Str), l.length ≤ n → ∀ c, (bracketPass l).getLast? = some c →
      l.getLast? = some c ∨ c = ']' := by
  intro n
  induction n with
  | zero =>
    intro l h c hc
    have : l = [] := List.eq_nil_of_length_eq_zero (Nat.le_zero.mp h)
    subst this
    simp [bracketPass, bpAux] at hc
  | succ n ih =>
    intro l h c hc
    cases l with
    | nil => simp [bracketPass, bpAux] at hc
    | cons a rest =>
      simp only [List.length_cons] at h
      by_cases ha : a = '['
      · subst ha
        by_cases hm : rest.takeWhile isDigitC ≠ [] ∧
            (rest.drop (rest.takeWhile isDigitC).length).head? = some ']'
        · rw [bracketPass_cons_match hm] at hc
          cases hout : bracketPass (rest.drop ((rest.takeWhile isDigitC).length + 1)) with
          | nil =>
            rw [hout] at hc
            simp [List.getLast?] at hc
            right
            exact hc.symm
          | cons b bs =>
            rw [hout] at hc
            rw [getLast?_cons_of_ne_nil (by simp), getLast?_cons_of_ne_nil (by simp)] at hc
            rw [← hout] at hc
            have hdlen : (rest.drop ((rest.takeWhile isDigitC).length + 1)).length ≤ n := by
              simp only [List.length_drop]
              omega
            rcases ih _ hdlen c hc with hres | hres
            · left
              have hdne : rest.drop ((rest.takeWhile isDigitC).length + 1) ≠ [] := by
                intro hnil
                rw [hnil] at hout
                simp [bracketPass, bpAux] at hout
              have hrne : rest ≠ [] := by
                intro hnil
                subst hnil
                simp at hdne
              rw [drop_getLast? hdne] at hres
              rw [getLast?_cons_of_ne_nil hrne]
              exact hres
            · right; exact hres
        · rw [bracketPass_cons_nomatch hm] at hc
          cases hout : bracketPass rest with
          | nil =>
            have : rest = [] := bracketPass_eq_nil hout
            subst this
            rw [hout] at hc
            simp [List.getLast?] at hc
            left
            simp [List.getLast?]
            exact hc
          | cons b bs =>
            rw [hout] at hc
            rw [getLast?_cons_of_ne_nil (by simp)] at hc
            rw [← hout] at hc
            have hrne : rest ≠ [] := by
              intro hnil
              subst hnil
              simp [bracketPass, bpAux] at hout
            rcases ih rest (by omega) c hc with hres | hres
            · left
              rw [getLast?_cons_of_ne_nil hrne]
              exact hres
            · right; exact hres
      · rw [bracketPass_cons_ne rest ha] at hc
        cases hout : bracketPass rest with
        | nil =>
          have : rest = [] := bracketPass_eq_nil hout
          subst this
          rw [hout] at hc
          simp [List.getLast?] at hc
          left
          simp [List.getLast?, hc]
        | cons b bs =>
          rw [hout] at hc
          rw [getLast?_cons_of_ne_nil (by simp)] at hc
          rw [← hout] at hc
          have hrne : rest ≠ [] := by
            intro hnil
            subst hnil
            simp [bracketPass, bpAux] at hout
          rcases ih rest (by omega) c hc with hres | hres
          · left
            rw [getLast?_cons_of_ne_nil hrne]
            exact hres
          · right; exact hres

theorem dotCollapse_getLast :
    ∀ (n : Nat) (l : Str), l.length ≤ n → ∀ c, (dotCollapse l).getLast? = some c →
      l.getLast? = some c ∨ c = '.' := by
  intro n
  induction n with
  | zero =>
    intro l h c hc
    have : l = [] := List.eq_nil_of_length_eq_zero (Nat.le_zero.mp h)
    subst this
    simp [dotCollapse, dcAux] at hc
  | succ n ih =>
    intro l h c hc
    cases l with
    | nil => simp [dotCollapse, dcAux] at hc
    | cons a rest =>
      simp only [List.length_cons] at h
      by_cases ha : a = '.'
      · subst ha
        rw [dotCollapse_cons_dot] at hc
        cases hout : dotCollapse (rest.dropWhile (fun d => d = '.')) with
        | nil =>
          rw [hout] at hc
          simp [List.getLast?] at hc
          right
          exact hc.symm
        | cons b bs =>
          rw [hout] at hc
          rw [getLast?_cons_of_ne_nil (by simp)] at hc
          rw [← hout] at hc
          have hdlen : (rest.dropWhile (fun d => d = '.')).length ≤ n := by
            have := length_dropWhile_le (fun d => d = '.') rest
            omega
          rcases ih _ hdlen c hc with hres | hres
          · left
            have hdne : rest.dropWhile (fun d => d = '.') ≠ [] := by
              intro hnil
              rw [hnil] at hout
              simp [dotCollapse, dcAux] at hout
            have hrne : rest ≠ [] := by
              intro hnil
              subst hnil
              simp at hdne
            rw [dropWhile_getLast? hdne] at hres
            rw [getLast?_cons_of_ne_nil hrne]
            exact hres
          · right; exact hres
      · rw [dotCollapse_cons_ne rest ha] at hc
        cases hout : dotCollapse rest with
        | nil =>
          have : rest = [] := dotCollapse_eq_nil hout
          subst this
          rw [hout] at hc
          simp [List.getLast?] at hc
          left
          simp [List.getLast?, hc]
        | cons b bs =>
          rw [hout] at hc
          rw [getLast?_cons_of_ne_nil (by simp)] at hc
          rw [← hout] at hc
          have hrne : rest ≠ [] := by
            intro hnil
            subst hnil
            simp [dotCollapse, dcAux] at hout
          rcases ih rest (by omega) c hc with hres | hres
          · left
            rw [getLast?_cons_of_ne_nil hrne]
            exact hres
          · right; exact hres

theorem filter_cons_pos {p : Char → Bool} {a : Char} (l : Str) (h : p a = true) :
    (a :: l).filter p = a :: l.filter p := by
  rw [List.filter_cons, if_pos h]

theorem filter_reverse_comm (p : Char → Bool) :
    ∀ l : Str, l.reverse.filter p = (l.filter p).reverse := by
  intro l
  induction l with
  | nil => rfl
  | cons a as ih =>
    rw [List.reverse_cons, List.filter_append]
    by_cases hp : p a = true
    · have h1 : List.filter p [a] = [a] := by rw [List.filter_cons, if_pos hp]; rfl
      have h2 : List.filter p (a :: as) = a :: List.filter p as := by
        rw [List.filter_cons, if_pos hp]
      rw [h1, h2, List.reverse_cons, ih]
    · have h1 : List.filter p [a] = [] := by rw [List.filter_cons, if_neg hp]; rfl
      have h2 : List.filter p (a :: as) = List.filter p as := by
        rw [List.filter_cons, if_neg hp]
      rw [h1, h2, List.append_nil, ih]

theorem filter_getLast {p : Char → Bool} {l : Str} {c : Char}
    (h : l.getLast? = some c) (hc : p c = true) : (l.filter p).getLast? = some c := by
  have h1 : l.reverse.head? = some c := by rw [List.head?_reverse]; exact h
  obtain ⟨rr, hrr⟩ : ∃ rr, l.reverse = c :: rr := by
    cases hrev : l.reverse with
    | nil => rw [hrev] at h1; simp at h1
    | cons d ds =>
      rw [hrev] at h1
      simp at h1
      subst h1
      exact ⟨ds, rfl⟩
  rw [← List.head?_reverse]
  rw [← filter_reverse_comm, hrr, filter_cons_pos _ hc]
  rfl

theorem filter_id_of_all {p : Char → Bool} :
    ∀ {l : Str}, (∀ c ∈ l, p c = true) → l.filter p = l := by
  intro l
  induction l with
  | nil => intro _; rfl
  | cons a as ih =>
    intro h
    rw [filter_cons_pos _ (h a (List.mem_cons_self _ _))]
    rw [ih (fun c hc => h c (List.mem_cons_of_mem a hc))]

theorem trimSpace_head_false {l : Str} {c : Char} {r : Str}
    (h : trimSpace l = c :: r) : goIsSpace c = false := by
  unfold trimSpace at h
  have h1 : ((l.dropWhile goIsSpace).reverse.dropWhile goIsSpace).getLast? = some c := by
    rw [← List.head?_reverse, h]
    rfl
  have hne : (l.dropWhile goIsSpace).reverse.dropWhile goIsSpace ≠ [] := by
    intro hnil
    rw [hnil] at h1
    simp at h1
  rw [dropWhile_getLast? hne] at h1
  rw [List.getLast?_reverse] at h1
  cases hdw : l.dropWhile goIsSpace with
  | nil => rw [hdw] at h1; simp at h1
  | cons d ds =>
    rw [hdw] at h1
    simp at h1
    subst h1
    exact dropWhile_head_false hdw

theorem trimSpace_getLast_false {l : Str} {c : Char}
    (h : (trimSpace l).getLast? = some c) : goIsSpace c = false := by
  unfold trimSpace at h
  rw [List.getLast?_reverse] at h
  cases hdw : (l.dropWhile goIsSpace).reverse.dropWhile goIsSpace with
  | nil => rw [hdw] at h; simp at h
  | cons d ds =>
    rw [hdw] at h
    simp at h
    subst h
    exact dropWhile_head_false hdw

theorem trimSpace_id {l : Str}
    (h1 : ∀ c r, l = c :: r → goIsSpace c = false)
    (h2 : ∀ c, l.getLast? = some c → goIsSpace c = false) : trimSpace l = l := by
  unfold trimSpace
  rw [dropWhile_id h1]
  have h3 : l.reverse.dropWhile goIsSpace = l.reverse := by
    apply dropWhile_id
    intro c r hcr
    apply h2
    rw [← List.head?_reverse, hcr]
    rfl
  rw [h3, List.reverse_reverse]

/-- C2: `normalizePath` is idempotent over all strings, and
`normalizePath "users[0].addresses[12].street" = "users[].addresses[].street"`. -/
theorem c2_normalizePath_idempotent :
    (∀ p : Str, normalizePath (normalizePath p) = normalizePath p) ∧
    normalizePath "users[0].addresses[12].street".toList =
      "users[].addresses[].street".toList := by
  refine ⟨?_, by decide⟩
  intro p
  by_cases ht : trimSpace p = []
  · have h1 : normalizePath p = [] := by
      unfold normalizePath
      rw [ht]
      rfl
    rw [h1]
    rfl
  · have hnp : normalizePath p =
        dotCollapse (bracketPass (removeSpaces (trimSpace p))) := by
      unfold normalizePath
      rw [if_neg ht]
    obtain ⟨c0, t', hts⟩ : ∃ c0 t', trimSpace p = c0 :: t' := by
      cases hc : trimSpace p with
      | nil => exact absurd hc ht
      | cons a b => exact ⟨a, b, rfl⟩
    have hc0 : goIsSpace c0 = false := trimSpace_head_false hts
    have hc0sp : c0 ≠ ' ' := by
      intro hsp
      subst hsp
      exact absurd hc0 (by decide)
    obtain ⟨tl, htl⟩ : ∃ tl, (trimSpace p).getLast? = some tl := by
      cases hgl : (trimSpace p).getLast? with
      | none => exact absurd (List.getLast?_eq_none_iff.mp hgl) ht
      | some a => exact ⟨a, rfl⟩
    have htlns : goIsSpace tl = false := trimSpace_getLast_false htl
    have htlsp : tl ≠ ' ' := by
      intro hsp
      subst hsp
      exact absurd htlns (by decide)
    -- the output of the first pass
    have hrs : removeSpaces (trimSpace p) = c0 :: removeSpaces t' := by
      rw [hts]
      exact filter_cons_pos _ (by simp [hc0sp])
    have hrs_last : (removeSpaces (trimSpace p)).getLast? = some tl :=
      filter_getLast htl (by simp [htlsp])
    have hbp_head : (bracketPass (removeSpaces (trimSpace p))).head? = some c0 := by
      rw [hrs]
      exact bracketPass_head _ _
    obtain ⟨b1, hbp⟩ : ∃ b1, bracketPass (removeSpaces (trimSpace p)) = c0 :: b1 := by
      cases hb : bracketPass (removeSpaces (trimSpace p)) with
      | nil => rw [hb] at hbp_head; simp at hbp_head
      | cons a b =>
        rw [hb] at hbp_head
        simp at hbp_head
        subst hbp_head
        exact ⟨b, rfl⟩
    set N := dotCollapse (bracketPass (removeSpaces (trimSpace p))) with hN
    have hN_head : N.head? = some c0 := by
      rw [hN, hbp]
      exact dotCollapse_head _ _
    obtain ⟨n1, hNc⟩ : ∃ n1, N = c0 :: n1 := by
      cases hn : N with
      | nil => rw [hn] at hN_head; simp at hN_head
      | cons a b =>
        rw [hn] at hN_head
        simp at hN_head
        subst hN_head
        exact ⟨b, rfl⟩
    -- last character of N is not whitespace
    have hN_last : ∀ c, N.getLast? = some c → goIsSpace c = false := by
      intro c hc
      rcases dotCollapse_getLast _ _ (Nat.le_refl _) c hc with hres | hres
      · rcases bracketPass_getLast _ _ (Nat.le_refl _) c hres with hres2 | hres2
        · rw [hrs_last] at hres2
          cases hres2
          exact htlns
        · subst hres2
          decide
      · subst hres
        decide
    -- N contains no space character
    have hN_nospace : ∀ c ∈ N, c ≠ ' ' := by
      intro c hcN
      rcases dotCollapse_mem _ _ (Nat.le_refl _) c hcN with hres | hres
      · rcases bracketPass_mem _ _ (Nat.le_refl _) c hres with hres2 | hres2
        · have := List.of_mem_filter hres2
          simpa using this
        · rcases hres2 with h | h <;> (subst h; decide)
      · subst hres
        decide
    -- the invariants of N
    have hN_noBr : noBrB N = true :=
      noBrB_dotCollapse _ _ (Nat.le_refl _)
        (noBrB_bracketPass _ _ (Nat.le_refl _))
    have hN_noDD : noDDB N = true := noDDB_dotCollapse _ _ (Nat.le_refl _)
    -- second pass is the identity
    have htrimN : trimSpace N = N := by
      apply trimSpace_id
      · intro c r hcr
        rw [hNc] at hcr
        cases hcr
        exact hc0
      · exact hN_last
    have hrsN : removeSpaces N = N := filter_id_of_all (by
      intro c hcN
      simp [hN_nospace c hcN])
    rw [hnp]
    show normalizePath N = N
    unfold normalizePath
    rw [htrimN, if_neg (by rw [hNc]; simp)]
    rw [hrsN]
    rw [bracketPass_id_of_noBr N hN_noBr]
    rw [dotCollapse_id_of_noDD N hN_noDD]

theorem sentinel_chars (k : Nat) : ∀ c ∈ sentinel k, c ≠ '{' ∧ c ≠ '}' := by
  intro c hc
  unfold sentinel at hc
  rcases List.mem_append.mp hc with hm | hm
  · rcases List.mem_append.mp hm with hm2 | hm2
    · exact (by decide : ∀ c ∈ "__ESCAPED_BRACE_".toList, c ≠ '{' ∧ c ≠ '}') c hm2
    · have hd := natRepr_all_digit k c hm2
      exact ⟨(isDigitC_ne_special hd).1, (isDigitC_ne_special hd).2.1⟩
  · exact (by decide : ∀ c ∈ "__".toList, c ≠ '{' ∧ c ≠ '}') c hm

theorem sentinel_ne_nil (k : Nat) : sentinel k ≠ [] := by
  unfold sentinel
  simp

theorem sentChain_chars :
    ∀ (inners : List Str) (k : Nat), ∀ c ∈ sentChain k inners, c ≠ '{' ∧ c ≠ '}' := by
  intro inners
  induction inners with
  | nil => intro k c hc; simp [sentChain] at hc
  | cons s rest ih =>
    intro k c hc
    rcases List.mem_append.mp hc with hm | hm
    · exact sentinel_chars k c hm
    · exact ih (k + 1) c hm

theorem drop_len_add_two (s : Str) (x y : Char) (R : Str) :
    (s ++ (x :: y :: R)).drop (s.length + 2) = R := by
  induction s with
  | nil => rfl
  | cons a as ih =>
    show List.drop (as.length + 1 + 2) (a :: (as ++ (x :: y :: R))) = R
    rw [show as.length + 1 + 2 = (as.length + 2) + 1 from rfl, List.drop_succ_cons]
    exact ih

theorem namedScanAux_id (table : Overlay) :
    ∀ (fuel : Nat) (l : Str), (∀ c ∈ l, c ≠ '{') → namedScanAux fuel table l = l := by
  intro fuel
  induction fuel with
  | zero => intro l _; rfl
  | succ fuel ih =>
    intro l h
    cases l with
    | nil => rfl
    | cons c rest =>
      have hc : c ≠ '{' := h c (List.mem_cons_self _ _)
      simp only [namedScanAux]
      rw [if_neg hc]
      rw [ih rest (fun d hd => h d (List.mem_cons_of_mem c hd))]

theorem escBlocks_cons (s : Str) (rest : List Str) :
    escBlocks (s :: rest) = '{' :: '{' :: (s ++ ('}' :: '}' :: escBlocks rest)) := by
  show ('{' :: '{' :: (s ++ ['}', '}'])) ++ escBlocks rest = _
  simp [List.cons_append, List.append_assoc]

theorem escAux_escBlocks :
    ∀ (inners : List Str) (k fuel : Nat),
      (∀ s ∈ inners, ∀ c ∈ s, c ≠ '{' ∧ c ≠ '}') →
      (escBlocks inners).length ≤ fuel →
      escAux fuel k (escBlocks inners) = (sentChain k inners, repsFrom k inners) := by
  intro inners
  induction inners with
  | nil =>
    intro k fuel _ _
    cases fuel <;> rfl
  | cons s rest ih =>
    intro k fuel hnb hfuel
    rw [escBlocks_cons] at hfuel ⊢
    cases fuel with
    | zero =>
      simp only [List.length_cons] at hfuel
      omega
    | succ fuel =>
      have hs : ∀ c ∈ s, (fun d => (d ≠ '{' ∧ d ≠ '}' : Bool)) c = true := by
        intro c hc
        have := hnb s (List.mem_cons_self _ _) c hc
        simp [this.1, this.2]
      simp only [escAux]
      rw [if_pos ⟨trivial, rfl⟩]
      rw [show ('{' :: (s ++ ('}' :: '}' :: escBlocks rest)) : Str).tail =
        s ++ ('}' :: '}' :: escBlocks rest) from rfl]
      rw [takeWhile_append_stop s '}' ('}' :: escBlocks rest) hs (by decide)]
      rw [List.drop_left s ('}' :: '}' :: escBlocks rest)]
      rw [show prefixB ['}', '}'] ('}' :: '}' :: escBlocks rest) = true from
        prefixB_self_append ['}', '}'] (escBlocks rest)]
      rw [if_pos rfl]
      rw [drop_len_add_two s '}' '}' (escBlocks rest)]
      rw [ih (k + 1) fuel (fun t ht => hnb t (List.mem_cons_of_mem s ht)) (by
        simp only [List.length_cons, List.length_append] at hfuel
        omega)]
      rfl

theorem escapeExtract_escBlocks (inners : List Str)
    (hnb : ∀ s ∈ inners, ∀ c ∈ s, c ≠ '{' ∧ c ≠ '}') :
    escapeExtract (escBlocks inners) = (sentChain 0 inners, repsFrom 0 inners) :=
  escAux_escBlocks inners 0 _ hnb (Nat.le_refl _)

/-! ## C1: restoration of sentinels in escaped-only templates -/

theorem prefixB_mono (t : Str) : ∀ (m w : Str),
    prefixB (m ++ t) w = true → prefixB m w = true := by
  intro m
  induction m with
  | nil => intro w _; rfl
  | cons a as ih =>
    intro w h
    cases w with
    | nil => simp [prefixB] at h
    | cons b bs =>
      simp only [List.cons_append, prefixB] at h ⊢
      by_cases hab : a = b
      · rw [if_pos hab] at h ⊢
        exact ih bs h
      · rw [if_neg hab] at h
        exact absurd h (by simp)

theorem prefixB_take : ∀ (pat u v : Str), prefixB pat (u ++ v) = true →
    pat.length ≤ u.length → prefixB pat u = true := by
  intro pat
  induction pat with
  | nil => intro u v _ _; rfl
  | cons p ps ih =>
    intro u v h hlen
    cases u with
    | nil =>
      simp only [List.length_cons, List.length_nil] at hlen
      omega
    | cons a as =>
      simp only [List.cons_append, prefixB] at h ⊢
      by_cases hpa : p = a
      · rw [if_pos hpa] at h ⊢
        exact ih as v h (by simp only [List.length_cons] at hlen; omega)
      · rw [if_neg hpa] at h
        exact absurd h (by simp)

theorem prefixB_char_mem : ∀ (pat u : Str) (x : Char) (b : Str),
    prefixB pat (u ++ x :: b) = true → u.length < pat.length → x ∈ pat := by
  intro pat
  induction pat with
  | nil =>
    intro u x b _ hlen
    simp only [List.length_nil] at hlen
    omega
  | cons p ps ih =>
    intro u x b h hlen
    cases u with
    | nil =>
      simp only [List.nil_append, prefixB] at h
      by_cases hpx : p = x
      · rw [hpx]; exact List.mem_cons_self _ _
      · rw [if_neg hpx] at h
        exact absurd h (by simp)
    | cons a as =>
      simp only [List.cons_append, prefixB] at h
      by_cases hpa : p = a
      · rw [if_pos hpa] at h
        exact List.mem_cons_of_mem p (ih as x b h (by
          simp only [List.length_cons] at hlen; omega))
      · rw [if_neg hpa] at h
        exact absurd h (by simp)

theorem occursB_of_suffix_prefixB {pat w l : Str} (hw : w <:+ l)
    (hp : prefixB pat w = true) : occursB pat l = true := by
  obtain ⟨u, hu⟩ := hw
  subst hu
  exact occursB_append_right u (occursB_of_prefixB hp)

theorem suffix_snoc_elim {w s : Str} {x : Char} (h : w <:+ s ++ [x]) (hw : w ≠ []) :
    ∃ w', w = w' ++ [x] ∧ w' <:+ s := by
  have h1 : w.reverse <+: (s ++ [x]).reverse := List.reverse_prefix.mpr h
  rw [List.reverse_append] at h1
  cases hwr : w.reverse with
  | nil => exact absurd (by simpa using congrArg List.reverse hwr) hw
  | cons c ws =>
    rw [hwr] at h1
    have h2 : c :: ws <+: x :: s.reverse := by simpa using h1
    rw [List.cons_prefix_cons] at h2
    refine ⟨ws.reverse, ?_, ?_⟩
    · have hwv : w = (c :: ws).reverse := by rw [← hwr, List.reverse_reverse]
      rw [hwv, List.reverse_cons, h2.1]
    · have h3 : ws.reverse <:+ s.reverse.reverse := List.reverse_suffix.mpr h2.2
      rwa [List.reverse_reverse] at h3

theorem sentinel_eq_marker_append (j : Nat) :
    sentinel j = escMarker ++ (natRepr j ++ "__".toList) := by
  unfold sentinel escMarker
  rw [List.append_assoc]

theorem prefixB_sentinel_lbrace (j : Nat) (z : Str) :
    prefixB (sentinel j) ('\x7b' :: z) = false := by
  rw [sentinel_eq_marker_append,
    show escMarker = '_' :: "_ESCAPED_BRACE_".toList from by decide,
    List.cons_append]
  simp only [prefixB]
  rw [if_neg (by decide)]

theorem sentinel_noStart {j : Nat} {s : Str}
    (hmf : occursB escMarker s = false) :
    ∀ w b, w ≠ [] → w <:+ ('\x7b' :: (s ++ ['\x7d'])) →
      prefixB (sentinel j) (w ++ b) = false := by
  intro w b hw hsuf
  rcases List.suffix_cons_iff.mp hsuf with heq | hsuf2
  · subst heq
    rw [List.cons_append]
    exact prefixB_sentinel_lbrace j _
  · obtain ⟨w', hw'eq, hw's⟩ := suffix_snoc_elim hsuf2 hw
    subst hw'eq
    by_cases hlen : (sentinel j).length ≤ w'.length
    · by_contra hcon
      have hp : prefixB (sentinel j) ((w' ++ ['\x7d']) ++ b) = true := by
        revert hcon
        cases prefixB (sentinel j) ((w' ++ ['\x7d']) ++ b) <;> simp
      rw [List.append_assoc] at hp
      have hp1 : prefixB (sentinel j) w' = true := prefixB_take _ w' _ hp hlen
      have hp2 : prefixB escMarker w' = true := by
        rw [sentinel_eq_marker_append] at hp1
        exact prefixB_mono _ _ _ hp1
      have hocc : occursB escMarker s = true := occursB_of_suffix_prefixB hw's hp2
      rw [hmf] at hocc
      exact Bool.false_ne_true hocc
    · push_neg at hlen
      by_contra hcon
      have hp : prefixB (sentinel j) ((w' ++ ['\x7d']) ++ b) = true := by
        revert hcon
        cases prefixB (sentinel j) ((w' ++ ['\x7d']) ++ b) <;> simp
      rw [List.append_assoc] at hp
      have hmem : '\x7d' ∈ sentinel j := prefixB_char_mem _ w' '\x7d' b hp hlen
      exact (sentinel_chars j '\x7d' hmem).2 rfl

theorem replaceFirst_append_noStart (pat new : Str) :
    ∀ (a X : Str),
      (∀ w b, w ≠ [] → w <:+ a → prefixB pat (w ++ b) = false) →
      replaceFirst pat new (a ++ X) = a ++ replaceFirst pat new X := by
  intro a
  induction a with
  | nil => intro X _; rfl
  | cons c as ih =>
    intro X h
    have hno : prefixB pat (c :: (as ++ X)) = false :=
      h (c :: as) X (by simp) (List.suffix_refl _)
    rw [List.cons_append]
    simp only [replaceFirst]
    rw [if_neg (by simp [hno] :
      ¬ (pat ≠ [] ∧ prefixB pat (c :: (as ++ X)) = true))]
    rw [ih X (fun w b hw hsuf => h w b hw (hsuf.trans (List.suffix_cons c as)))]
    rfl

theorem foldl_replaceFirst_append (a : Str) :
    ∀ (reps : List (Str × Str)) (X : Str),
      (∀ pr ∈ reps, ∀ w b, w ≠ [] → w <:+ a → prefixB pr.1 (w ++ b) = false) →
      reps.foldl (fun acc pr => replaceFirst pr.1 pr.2 acc) (a ++ X) =
        a ++ reps.foldl (fun acc pr => replaceFirst pr.1 pr.2 acc) X := by
  intro reps
  induction reps with
  | nil => intro X _; rfl
  | cons pr rest ih =>
    intro X h
    simp only [List.foldl_cons]
    rw [replaceFirst_append_noStart pr.1 pr.2 a X (h pr (List.mem_cons_self _ _))]
    exact ih (replaceFirst pr.1 pr.2 X) (fun q hq => h q (List.mem_cons_of_mem _ hq))

theorem repsFrom_mem : ∀ (inners : List Str) (k : Nat), ∀ pr ∈ repsFrom k inners,
    ∃ j, pr.1 = sentinel j := by
  intro inners
  induction inners with
  | nil => intro k pr hpr; simp [repsFrom] at hpr
  | cons s rest ih =>
    intro k pr hpr
    simp only [repsFrom] at hpr
    rcases List.mem_cons.mp hpr with heq | hm
    · exact ⟨k, by rw [heq]⟩
    · exact ih (k + 1) pr hm

theorem litBlocks_cons (s : Str) (rest : List Str) :
    litBlocks (s :: rest) = ('\x7b' :: (s ++ ['\x7d'])) ++ litBlocks rest := rfl

theorem restore_chain :
    ∀ (inners : List Str) (k : Nat),
      (∀ s ∈ inners, occursB escMarker s = false) →
      (repsFrom k inners).foldl (fun acc pr => replaceFirst pr.1 pr.2 acc)
        (sentChain k inners) = litBlocks inners := by
  intro inners
  induction inners with
  | nil => intro k _; rfl
  | cons s rest ih =>
    intro k hmf
    simp only [repsFrom, sentChain, List.foldl_cons]
    rw [replaceFirst_append_pat ('\x7b' :: (s ++ ['\x7d'])) (sentChain (k + 1) rest)
      (sentinel_ne_nil k)]
    have hns : ∀ pr ∈ repsFrom (k + 1) rest, ∀ w b, w ≠ [] →
        w <:+ ('\x7b' :: (s ++ ['\x7d'])) → prefixB pr.1 (w ++ b) = false := by
      intro pr hpr w b hw hsuf
      obtain ⟨j, hj⟩ := repsFrom_mem rest (k + 1) pr hpr
      rw [hj]
      exact sentinel_noStart (hmf s (List.mem_cons_self _ _)) w b hw hsuf
    rw [foldl_replaceFirst_append ('\x7b' :: (s ++ ['\x7d'])) (repsFrom (k + 1) rest)
      (sentChain (k + 1) rest) hns]
    rw [ih (k + 1) (fun t ht => hmf t (List.mem_cons_of_mem s ht))]
    rfl

theorem foldl_replaceAll_brace_id {β : Type} (f : β → Str) (g : β → Str) :
    ∀ (L : List β) (acc : Str), '\x7b' ∉ acc →
      L.foldl (fun a x => replaceAll ('\x7b' :: f x) (g x) a) acc = acc := by
  intro L
  induction L with
  | nil => intro acc _; rfl
  | cons x xs ih =>
    intro acc h
    simp only [List.foldl_cons]
    rw [replaceAll_id_of_not_occurs (g x) (occursB_eq_false_of_head h)]
    exact ih acc h

/-- C1 counterexample: the escaped-only round trip fails as stated. With
an empty parameter list the in-source `interpolateParams` returns the
escaped-only template `{{x}}` unchanged instead of unescaping it to
`{x}`; and when the escaped text contains the sentinel marker
`__ESCAPED_BRACE_`, restoration replaces the wrong occurrence, so even a
non-empty parameter list (and, for the spec-modelled variadic
interpolator, any overlay list) does not yield the single-brace literal
form. -/
theorem c1_counterexample_escaped_round_trip :
    interpolateParams "{{x}}".toList [] = "{{x}}".toList ∧
    "{{x}}".toList ≠ "{x}".toList ∧
    interpolateParams "{{__ESCAPED_BRACE_1__}}{{x}}".toList
        [GoVal.str "y".toList] = "{{x}}__ESCAPED_BRACE_1__".toList ∧
    interpolateSpec "{{__ESCAPED_BRACE_1__}}{{x}}".toList [] [] =
      "{{x}}__ESCAPED_BRACE_1__".toList ∧
    "{{x}}__ESCAPED_BRACE_1__".toList ≠
      "{__ESCAPED_BRACE_1__}{x}".toList := by
  refine ⟨by decide, by decide, by decide, by decide, by decide⟩

/-- C1 amended: for a template consisting only of escaped placeholders
whose inner texts are brace-free and do not contain the sentinel marker
`__ESCAPED_BRACE_`, the spec-modelled variadic interpolator rewrites
every escaped sequence to its single-brace literal form for every
positional parameter list and every overlay list; the in-source
two-argument `interpolateParams` does so exactly when the parameter list
is non-empty, and returns the template unchanged (still escaped) when
the parameter list is empty. -/
theorem c1_escaped_only_round_trip (inners : List Str) (params : List GoVal)
    (ovs : List Overlay)
    (hnb : ∀ s ∈ inners, ∀ c ∈ s, c ≠ '\x7b' ∧ c ≠ '\x7d')
    (hmf : ∀ s ∈ inners, occursB escMarker s = false) :
    interpolateSpec (escBlocks inners) params ovs = litBlocks inners ∧
    (params ≠ [] →
      interpolateParams (escBlocks inners) params = litBlocks inners) ∧
    (params = [] →
      interpolateParams (escBlocks inners) params = escBlocks inners) := by
  have hchain : ∀ c ∈ sentChain 0 inners, c ≠ '\x7b' :=
    fun c hc => (sentChain_chars inners 0 c hc).1
  have hbr : '\x7b' ∉ sentChain 0 inners := fun hmem => hchain _ hmem rfl
  refine ⟨?_, ?_, ?_⟩
  · unfold interpolateSpec
    simp only [escapeExtract_escBlocks inners hnb]
    rw [namedScanAux_id (buildTable params ovs) (sentChain 0 inners).length
      (sentChain 0 inners) hchain]
    rw [posScanAux_id params (sentChain 0 inners).length (sentChain 0 inners)
      hchain]
    exact restore_chain inners 0 hmf
  · intro hps
    unfold interpolateParams
    rw [if_neg hps]
    simp only [escapeExtract_escBlocks inners hnb]
    have hr1 : (namedParams params).foldl
        (fun acc nv => replaceAll ('\x7b' :: (nv.1 ++ ['\x7d']))
          (if nv.2 = GoVal.nil then [] else renderVal nv.2) acc)
        (sentChain 0 inners) = sentChain 0 inners :=
      foldl_replaceAll_brace_id (fun nv => nv.1 ++ ['\x7d'])
        (fun nv => if nv.2 = GoVal.nil then [] else renderVal nv.2)
        (namedParams params) (sentChain 0 inners) hbr
    rw [hr1]
    have hr2 : params.enum.foldl
        (fun acc ip => replaceAll ('\x7b' :: (natRepr ip.1 ++ ['\x7d']))
          (renderVal ip.2) acc)
        (sentChain 0 inners) = sentChain 0 inners :=
      foldl_replaceAll_brace_id (fun ip => natRepr ip.1 ++ ['\x7d'])
        (fun ip => renderVal ip.2) params.enum (sentChain 0 inners) hbr
    rw [hr2]
    exact restore_chain inners 0 hmf
  · intro hps
    unfold interpolateParams
    rw [if_pos hps]

/-- Closed witness for `c1_escaped_only_round_trip`. -/
theorem c1_escaped_only_round_trip_witness :
    interpolateSpec (escBlocks ["x".toList]) [GoVal.str "y".toList] [] =
      litBlocks ["x".toList] ∧
    interpolateParams (escBlocks ["x".toList]) [GoVal.str "y".toList] =
      litBlocks ["x".toList] ∧
    interpolateParams (escBlocks ["x".toList]) [] = escBlocks ["x".toList] := by
  refine ⟨?_, ?_, ?_⟩
  · exact (c1_escaped_only_round_trip ["x".toList] [GoVal.str "y".toList] []
      (by decide) (by decide)).1
  · exact (c1_escaped_only_round_trip ["x".toList] [GoVal.str "y".toList] []
      (by decide) (by decide)).2.1 (by decide)
  · exact (c1_escaped_only_round_trip ["x".toList] [] []
      (by decide) (by decide)).2.2 rfl

/-- C3 counterexample: tier 3 is selected by presence, not by non-empty
interpolation. With a present per-constraint default entry for `min`
that is the empty template, resolution yields the empty message even
though the global default message is non-empty — so the first
non-empty-yielding tier does not become the message, and a failure can
receive an unset (empty) message despite a non-empty global default. -/
theorem c3_counterexample_present_empty_default :
    resolveFailureMessage
      ⟨"Invalid value".toList, [("min".toList, [])], [], []⟩
      none [] [] "x".toList "min".toList [] = [] ∧
    "Invalid value".toList ≠ ([] : Str) := by
  refine ⟨by decide, by decide⟩

/-- C3 amended: resolution tries, in order, the struct-tag override, the
registry at the normalized path, the per-constraint default table, and
the global default. The first two tiers are terminal exactly when they
interpolate non-empty; but a present per-constraint default entry is
terminal by presence alone — when absent, the global default is
interpolated. -/
theorem c3_resolution_tiers (v : ValidatorCfg) (st : Option GoType)
    (ns fn np c : Str) (ps : List GoVal) :
    (∀ field, getStructFieldFromNamespace st ns fn = Except.ok (some field) →
      interpolateSpec (getRawTagMessage field c) ps [v.CustomParams] ≠ [] →
      resolveFailureMessage v st ns fn np c ps =
        interpolateSpec (getRawTagMessage field c) ps [v.CustomParams]) ∧
    ((getStructFieldFromNamespace st ns fn = Except.ok none ∨
      (∃ field, getStructFieldFromNamespace st ns fn = Except.ok (some field) ∧
        interpolateSpec (getRawTagMessage field c) ps [v.CustomParams] = [])) →
      (ResolveMessage v.Messages np c ps [v.CustomParams] ≠ [] →
        resolveFailureMessage v st ns fn np c ps =
          ResolveMessage v.Messages np c ps [v.CustomParams]) ∧
      (ResolveMessage v.Messages np c ps [v.CustomParams] = [] →
        (∀ mm, lookupS v.DefaultTagMessages c = some mm →
          resolveFailureMessage v st ns fn np c ps =
            interpolateSpec mm ps [v.CustomParams]) ∧
        (lookupS v.DefaultTagMessages c = none →
          resolveFailureMessage v st ns fn np c ps =
            interpolateSpec v.DefaultMessage ps [v.CustomParams]))) := by
  refine ⟨?_, ?_⟩
  · intro field hfield hne
    have ht : getRawTagMessage field c ≠ [] := by
      intro h0
      rw [h0, interpolateSpec_nil_template] at hne
      exact hne rfl
    unfold resolveFailureMessage
    simp only [hfield]
    rw [if_pos ht]
    rw [if_pos hne]
  · intro h0
    have hred : resolveFailureMessage v st ns fn np c ps =
        (if ResolveMessage v.Messages np c ps [v.CustomParams] ≠ [] then
          ResolveMessage v.Messages np c ps [v.CustomParams]
        else
          match lookupS v.DefaultTagMessages c with
          | some msg => interpolateSpec msg ps [v.CustomParams]
          | none => interpolateSpec v.DefaultMessage ps [v.CustomParams]) := by
      rcases h0 with hnone | ⟨field, hfield, hempty⟩
      · unfold resolveFailureMessage
        simp only [hnone]
        rw [if_neg (fun hh => hh rfl)]
      · unfold resolveFailureMessage
        simp only [hfield]
        by_cases ht : getRawTagMessage field c ≠ []
        · rw [if_pos ht]
          rw [hempty]
          rw [if_neg (fun hh => hh rfl)]
        · rw [if_neg ht]
          rw [if_neg (fun hh => hh rfl)]
    rw [hred]
    refine ⟨?_, ?_⟩
    · intro hm2
      rw [if_pos hm2]
    · intro hm2
      rw [if_neg (fun hh => hh hm2)]
      refine ⟨?_, ?_⟩
      · intro mm hdt
        simp only [hdt]
      · intro hdt
        simp only [hdt]

/-- Closed witness for `c3_resolution_tiers`: the registry tier and the
global-default tier fire at concrete configurations. -/
theorem c3_resolution_tiers_witness :
    resolveFailureMessage
      ⟨"Default".toList, [],
        [("p".toList, ⟨[], [("min".toList, "registry".toList)]⟩)], []⟩
      none [] [] "p".toList "min".toList [] = "registry".toList ∧
    resolveFailureMessage
      ⟨"Default".toList, [], [], []⟩
      none [] [] "p".toList "min".toList [] = "Default".toList := by
  constructor
  · have h := ((c3_resolution_tiers
      ⟨"Default".toList, [],
        [("p".toList, ⟨[], [("min".toList, "registry".toList)]⟩)], []⟩
      none [] [] "p".toList "min".toList []).2 (Or.inl rfl)).1 (by decide)
    rw [h]
    decide
  · have h := (((c3_resolution_tiers
      ⟨"Default".toList, [], [], []⟩
      none [] [] "p".toList "min".toList []).2 (Or.inl rfl)).2 (by decide)).2 rfl
    rw [h]
    decide

/-! ## C7: index-independence of normalized indexed paths -/

theorem digitChar_not_space (d : Nat) : goIsSpace (digitChar d) = false := by
  rcases d with _|_|_|_|_|_|_|_|_|d
  · decide
  · decide
  · decide
  · decide
  · decide
  · decide
  · decide
  · decide
  · decide
  · show goIsSpace '9' = false
    decide

theorem natRepr_not_space (n : Nat) : ∀ c ∈ natRepr n, goIsSpace c = false := by
  induction n using Nat.strong_induction_on with
  | _ n ih =>
    rw [natRepr_eq]
    by_cases hn : n < 10
    · rw [if_pos hn]
      intro c hc
      simp at hc
      subst hc
      exact digitChar_not_space n
    · rw [if_neg hn]
      intro c hc
      rcases List.mem_append.mp hc with hc | hc
      · exact ih (n / 10) (Nat.div_lt_self (by omega) (by omega)) c hc
      · simp at hc
        subst hc
        exact digitChar_not_space (n % 10)

theorem drop_len_add_one (s : Str) (x : Char) (R : Str) :
    (s ++ (x :: R)).drop (s.length + 1) = R := by
  induction s with
  | nil => rfl
  | cons a as ih =>
    show List.drop (as.length + 1 + 1) (a :: (as ++ (x :: R))) = R
    rw [show as.length + 1 + 1 = (as.length + 1) + 1 from rfl, List.drop_succ_cons]
    exact ih

theorem partsRender_chars :
    ∀ (parts : List (Nat × Str)),
      (∀ p ∈ parts, ∀ ch ∈ p.2, goIsSpace ch = false ∧ ch ≠ '[') →
      ∀ ch ∈ partsRender parts, goIsSpace ch = false := by
  intro parts
  induction parts with
  | nil => intro _ ch hch; simp [partsRender] at hch
  | cons p rest ih =>
    intro h ch hch
    cases p with
    | mk i seg =>
      simp only [partsRender] at hch
      rcases List.mem_cons.mp hch with hch | hch
      · subst hch; decide
      · rcases List.mem_append.mp hch with hch | hch
        · exact natRepr_not_space i ch hch
        · rcases List.mem_cons.mp hch with hch | hch
          · subst hch; decide
          · rcases List.mem_append.mp hch with hch | hch
            · exact (h (i, seg) (List.mem_cons_self _ _) ch hch).1
            · exact ih (fun q hq => h q (List.mem_cons_of_mem _ hq)) ch hch

theorem bpAux_render :
    ∀ (fuel : Nat) (s0 : Str) (parts : List (Nat × Str)),
      (pathRender s0 parts).length ≤ fuel →
      (∀ ch ∈ s0, ch ≠ '[') →
      (∀ p ∈ parts, ∀ ch ∈ p.2, ch ≠ '[') →
      bpAux fuel (pathRender s0 parts) = s0 ++ segsRender (parts.map Prod.snd) := by
  intro fuel
  induction fuel with
  | zero =>
    intro s0 parts hlen hs0 hseg
    have h0 : pathRender s0 parts = [] :=
      List.eq_nil_of_length_eq_zero (Nat.le_zero.mp hlen)
    unfold pathRender at h0
    rcases List.append_eq_nil.mp h0 with ⟨hs, hp⟩
    subst hs
    cases parts with
    | nil => rfl
    | cons p rest =>
      cases p with
      | mk i seg => simp [partsRender] at hp
  | succ fuel ih =>
    intro s0 parts hlen hs0 hseg
    cases s0 with
    | cons c s0' =>
      have hc : c ≠ '[' := hs0 c (List.mem_cons_self _ _)
      show bpAux (fuel + 1) (c :: pathRender s0' parts) =
        c :: (s0' ++ segsRender (parts.map Prod.snd))
      simp only [bpAux]
      rw [if_neg hc]
      rw [ih s0' parts (by
          simp only [pathRender, List.length_append, List.length_cons] at hlen ⊢
          omega)
        (fun ch hch => hs0 ch (List.mem_cons_of_mem c hch)) hseg]
    | nil =>
      cases parts with
      | nil => rfl
      | cons p rest =>
        cases p with
        | mk i seg =>
          have hlen1 : 0 < (natRepr i).length :=
            List.length_pos.mpr (natRepr_ne_nil i)
          show bpAux (fuel + 1)
              ('[' :: (natRepr i ++ ']' :: (seg ++ partsRender rest))) =
            '[' :: ']' :: (seg ++ segsRender (rest.map Prod.snd))
          simp only [bpAux]
          rw [if_pos trivial]
          rw [takeWhile_append_stop (natRepr i) ']' (seg ++ partsRender rest)
            (natRepr_all_digit i) (by decide)]
          rw [if_pos ⟨natRepr_ne_nil i, by
            rw [List.drop_left (natRepr i) (']' :: (seg ++ partsRender rest))]
            rfl⟩]
          rw [drop_len_add_one (natRepr i) ']' (seg ++ partsRender rest)]
          rw [show (seg ++ partsRender rest : Str) = pathRender seg rest from rfl]
          rw [ih seg rest (by
              simp only [pathRender, partsRender, List.length_append,
                List.length_cons, List.nil_append] at hlen ⊢
              omega)
            (fun ch hch => hseg (i, seg) (List.mem_cons_self _ _) ch hch)
            (fun q hq => hseg q (List.mem_cons_of_mem _ hq))]

theorem bracketPass_render (s0 : Str) (parts : List (Nat × Str))
    (hs0 : ∀ ch ∈ s0, ch ≠ '[')
    (hseg : ∀ p ∈ parts, ∀ ch ∈ p.2, ch ≠ '[') :
    bracketPass (pathRender s0 parts) = s0 ++ segsRender (parts.map Prod.snd) :=
  bpAux_render _ s0 parts (Nat.le_refl _) hs0 hseg

theorem normalizePath_pathRender (s0 : Str) (parts : List (Nat × Str))
    (hs0 : ∀ ch ∈ s0, goIsSpace ch = false ∧ ch ≠ '[')
    (hseg : ∀ p ∈ parts, ∀ ch ∈ p.2, goIsSpace ch = false ∧ ch ≠ '[') :
    normalizePath (pathRender s0 parts) =
      if s0 = [] ∧ parts.map Prod.snd = [] then []
      else dotCollapse (s0 ++ segsRender (parts.map Prod.snd)) := by
  have hchars : ∀ ch ∈ pathRender s0 parts, goIsSpace ch = false := by
    intro ch hch
    rcases List.mem_append.mp hch with hch | hch
    · exact (hs0 ch hch).1
    · exact partsRender_chars parts hseg ch hch
  have htrim : trimSpace (pathRender s0 parts) = pathRender s0 parts :=
    trimSpace_id
      (fun ch r hcr => hchars ch (by rw [hcr]; exact List.mem_cons_self _ _))
      (fun ch hl => hchars ch (List.mem_of_getLast?_eq_some hl))
  simp only [normalizePath]
  rw [htrim]
  by_cases hc : s0 = [] ∧ parts = []
  · obtain ⟨h1, h2⟩ := hc
    subst h1
    subst h2
    rw [if_pos (show pathRender [] [] = ([] : Str) from rfl)]
    rw [if_pos ⟨rfl, rfl⟩]
  · have hne : pathRender s0 parts ≠ [] := by
      intro h0
      rcases List.append_eq_nil.mp h0 with ⟨ha, hb⟩
      refine hc ⟨ha, ?_⟩
      cases parts with
      | nil => rfl
      | cons p rest =>
        cases p with
        | mk i seg => simp [partsRender] at hb
    rw [if_neg hne]
    have hc' : ¬ (s0 = [] ∧ parts.map Prod.snd = []) := by
      intro hcc
      exact hc ⟨hcc.1, List.map_eq_nil_iff.mp hcc.2⟩
    rw [if_neg hc']
    have hrs : removeSpaces (pathRender s0 parts) = pathRender s0 parts := by
      apply filter_id_of_all
      intro ch hch
      have hns := hchars ch hch
      have hne' : ch ≠ ' ' := by
        intro heq
        subst heq
        rw [show goIsSpace ' ' = true from by decide] at hns
        exact absurd hns (by decide)
      simp [hne']
    rw [hrs]
    rw [bracketPass_render s0 parts (fun ch hch => (hs0 ch hch).2)
      (fun p hp ch hch => (hseg p hp ch hch).2)]

/-- C7: the registry setters normalize the stored path, so a constraint
message set at an indexed path is resolved through the normalized key of
every path that differs from it only in its bracketed numeric indices.
Paths are modelled as a base segment plus `[index]segment` groups whose
base and segments are free of whitespace and `[` — the shape of
`users[0].addresses[5].street`. -/
theorem c7_setter_normalization (v : ValidatorCfg) (s0 : Str)
    (parts parts1 : List (Nat × Str)) (c m : Str) (ps : List GoVal)
    (hsegs : parts.map Prod.snd = parts1.map Prod.snd)
    (hs0 : ∀ ch ∈ s0, goIsSpace ch = false ∧ ch ≠ '[')
    (hseg : ∀ p ∈ parts, ∀ ch ∈ p.2, goIsSpace ch = false ∧ ch ≠ '[') :
    ResolveMessage (SetConstraintMessage v (pathRender s0 parts) c m).Messages
      (normalizePath (pathRender s0 parts1)) c ps [v.CustomParams] =
      interpolateSpec m ps [v.CustomParams] := by
  have hseg1 : ∀ p ∈ parts1, ∀ ch ∈ p.2, goIsSpace ch = false ∧ ch ≠ '[' := by
    intro p hp ch hch
    have hmem : p.2 ∈ parts.map Prod.snd := by
      rw [hsegs]
      exact List.mem_map_of_mem _ hp
    obtain ⟨q, hq, hq2⟩ := List.mem_map.mp hmem
    exact hseg q hq ch (by rw [hq2]; exact hch)
  have hkey : normalizePath (pathRender s0 parts1) =
      normalizePath (pathRender s0 parts) := by
    rw [normalizePath_pathRender s0 parts hs0 hseg,
      normalizePath_pathRender s0 parts1 hs0 hseg1, hsegs]
  rw [hkey]
  show ResolveMessage (SetMessage v.Messages
      (normalizePath (pathRender s0 parts)) c m)
    (normalizePath (pathRender s0 parts)) c ps [v.CustomParams] = _
  exact ResolveMessage_SetMessage _ _ _ _ _ _

/-- Closed witness for `c7_setter_normalization`: a message set at
`users[0].addresses[5].street` resolves at the normalized key of
`users[3].addresses[7].street`. -/
theorem c7_witness :
    ResolveMessage
      (SetConstraintMessage ⟨[], [], [], []⟩
        (pathRender "users".toList
          [(0, ".addresses".toList), (5, ".street".toList)])
        "required".toList "msg".toList).Messages
      (normalizePath (pathRender "users".toList
        [(3, ".addresses".toList), (7, ".street".toList)]))
      "required".toList [] [(⟨[], [], [], []⟩ : ValidatorCfg).CustomParams] =
      interpolateSpec "msg".toList []
        [(⟨[], [], [], []⟩ : ValidatorCfg).CustomParams] :=
  c7_setter_normalization ⟨[], [], [], []⟩ "users".toList
    [(0, ".addresses".toList), (5, ".street".toList)]
    [(3, ".addresses".toList), (7, ".street".toList)]
    "required".toList "msg".toList [] (by decide) (by decide) (by decide)

end Valkit
